import Mathlib

/-! Verification development for the scribble-style file-backed JSON document
store in `main.go`: a shallow embedding of the driver operations (`Write`,
`Read`, `Delete`, `ReadAll`, `getOrCreateMutex`, the dual-probe `stat`) over
an explicit filesystem state, together with a model of the JSON codec the
driver uses (`json.MarshalIndent(v, "", "\t")` and `json.Unmarshal`). -/

namespace GoDB

/-! ### JSON values

`JValue` models the JSON documents handled by the store.  Array element lists
and object field lists are encoded with explicit spine constructors
(`sCons`/`sNil` for arrays, `fCons`/`fNil` for objects) so that every function
on values is plainly structurally recursive; `isVal`, `isArrSpine` and
`isFieldSpine` classify the shapes, and `wf` ties them together.  A string is
a list of characters.  A number carries its raw literal, exactly as Go's
`json.Number` does (the repository's `User.Age` and `Address.Pincode` fields
are `json.Number`); object fields are kept in declaration order. -/

inductive JValue where
  | null
  | boolV (b : Bool)
  | num (lit : List Char)
  | str (s : List Char)
  | arr (elems : JValue)
  | obj (fields : JValue)
  | sNil
  | sCons (head tail : JValue)
  | fNil
  | fCons (key : List Char) (val tail : JValue)
deriving DecidableEq, Repr

/-- Value-shaped constructors (as opposed to spine constructors). -/
def isVal : JValue → Bool
  | .null | .boolV _ | .num _ | .str _ | .arr _ | .obj _ => true
  | _ => false

/-- Array spines: a chain of `sCons` ending in `sNil`. -/
def isArrSpine : JValue → Bool
  | .sNil => true
  | .sCons _ t => isArrSpine t
  | _ => false

/-- Object-field spines: a chain of `fCons` ending in `fNil`. -/
def isFieldSpine : JValue → Bool
  | .fNil => true
  | .fCons _ _ t => isFieldSpine t
  | _ => false

/-- Characters that may occur in a JSON number token. -/
def numChar (c : Char) : Bool :=
  c.isDigit || c == '-' || c == '+' || c == '.' || c == 'e' || c == 'E'

/-- Remainder after the integer part of a number literal: `0` or a nonzero
digit followed by digits (the JSON grammar's `int`). -/
def numIntRest : List Char → Option (List Char)
  | [] => none
  | c :: rest =>
    if c = '0' then some rest
    else if c.isDigit then some (rest.dropWhile Char.isDigit) else none

/-- Remainder after the optional fraction part (`. digit+`). -/
def numFracRest : List Char → Option (List Char)
  | [] => some []
  | c :: rest =>
    if c = '.' then
      match rest with
      | [] => none
      | d :: _ => if d.isDigit then some (rest.dropWhile Char.isDigit) else none
    else some (c :: rest)

/-- A digit run at the start of the input (`digit+`), and what follows it. -/
def numExpDigits : List Char → Option (List Char)
  | [] => none
  | d :: rest => if d.isDigit then some (rest.dropWhile Char.isDigit) else none

/-- Remainder after the optional exponent part (`[eE] [+-]? digit+`). -/
def numExpRest : List Char → Option (List Char)
  | [] => some []
  | c :: rest =>
    if c = 'e' ∨ c = 'E' then
      match rest with
      | [] => none
      | s :: r2 => if s = '+' ∨ s = '-' then numExpDigits r2 else numExpDigits (s :: r2)
    else some (c :: rest)

/-- The JSON number grammar (`-? int frac? exp?`), as accepted by Go's decoder
and produced (for `json.Number` fields) by its encoder. -/
def validNumLit (l : List Char) : Bool :=
  let l1 := match l with
    | [] => []
    | c :: r => if c = '-' then r else c :: r
  match numIntRest l1 with
  | none => false
  | some r1 =>
    match numFracRest r1 with
    | none => false
    | some r2 =>
      match numExpRest r2 with
      | none => false
      | some r3 => r3.isEmpty

/-- Well-formed values: spines appear exactly under `arr`/`obj` and number
literals satisfy the JSON number grammar (`json.Marshal` validates a
`json.Number` against that grammar and rejects it otherwise; string contents
are unrestricted, the encoder escapes whatever needs escaping). -/
def wf : JValue → Bool
  | .null => true
  | .boolV _ => true
  | .num lit => validNumLit lit
  | .str _ => true
  | .arr s => isArrSpine s && wf s
  | .obj s => isFieldSpine s && wf s
  | .sNil => true
  | .sCons h t => isVal h && wf h && wf t
  | .fNil => true
  | .fCons _ v t => isVal v && wf v && wf t

/-! ### The encoder: `json.MarshalIndent(v, "", "\t")` -/

/-- The indentation for nesting depth `d`: one tab per level. -/
def indentC (d : Nat) : List Char := List.replicate d '\t'

/-- Lower-case hexadecimal digit. -/
def hexDig (n : Nat) : Char :=
  if n < 10 then Char.ofNat (48 + n) else Char.ofNat (87 + n)

/-- Go `encoding/json` string escaping (HTML escaping on, the default). -/
def escapeChar (c : Char) : List Char :=
  if c = '"' then ['\\', '"']
  else if c = '\\' then ['\\', '\\']
  else if c = '\n' then ['\\', 'n']
  else if c = '\r' then ['\\', 'r']
  else if c = '\t' then ['\\', 't']
  else if c.toNat < 32 then ['\\', 'u', '0', '0', hexDig (c.toNat / 16), hexDig (c.toNat % 16)]
  else if c = '<' then ['\\', 'u', '0', '0', '3', 'c']
  else if c = '>' then ['\\', 'u', '0', '0', '3', 'e']
  else if c = '&' then ['\\', 'u', '0', '0', '2', '6']
  else if c.toNat = 8232 then ['\\', 'u', '2', '0', '2', '8']
  else if c.toNat = 8233 then ['\\', 'u', '2', '0', '2', '9']
  else [c]

/-- Escape a whole string body. -/
def escStr : List Char → List Char
  | [] => []
  | c :: cs => escapeChar c ++ escStr cs

/-- `printV v d` is the byte sequence `json.MarshalIndent(v, "", "\t")`
produces for a value whose members sit at nesting depth `d + 1`: members of a
composite value are placed one per line, indented one tab per level, object
fields rendered as `"key": value`, and `[]`/`\x7b\x7d` for empty composites.
Spine constructors render the member lines of their enclosing composite. -/
def printV : JValue → Nat → List Char
  | .null, _ => ['n', 'u', 'l', 'l']
  | .boolV true, _ => ['t', 'r', 'u', 'e']
  | .boolV false, _ => ['f', 'a', 'l', 's', 'e']
  | .num lit, _ => lit
  | .str s, _ => '"' :: (escStr s ++ ['"'])
  | .arr .sNil, _ => ['[', ']']
  | .arr s, d => '[' :: '\n' :: (printV s (d + 1) ++ '\n' :: (indentC d ++ [']']))
  | .obj .fNil, _ => ['{', '}']
  | .obj s, d => '{' :: '\n' :: (printV s (d + 1) ++ '\n' :: (indentC d ++ ['}']))
  | .sNil, _ => []
  | .sCons h .sNil, d => indentC d ++ printV h d
  | .sCons h t, d => indentC d ++ (printV h d ++ ',' :: '\n' :: printV t d)
  | .fNil, _ => []
  | .fCons k v .fNil, d => indentC d ++ ('"' :: (escStr k ++ '"' :: ':' :: ' ' :: printV v d))
  | .fCons k v t, d =>
    indentC d ++ ('"' :: (escStr k ++ '"' :: ':' :: ' ' :: (printV v d ++ ',' :: '\n' :: printV t d)))

/-- A Go value handed to `Driver.Write`: either it encodes to a JSON document
or `json.MarshalIndent` rejects it (channels, functions, NaN, ...). -/
inductive GoValue where
  | enc (j : JValue)
  | unenc
deriving DecidableEq

/-- `json.MarshalIndent(v, "", "\t")`, as called at line 74 of `main.go`. -/
def marshalIndent : GoValue → Option (List Char)
  | .enc j => some (printV j 0)
  | .unenc => none

/-! ### The filesystem

A path is a list of name components; `filepath.Join` of slash-free component
names appends the non-empty ones (`Join("users", "") = "users"`), which the
driver code exercises through `Delete`'s `filepath.Join(collection, resource)`.
The state is the set of existing directories plus a map from file paths to
contents (an association list in which the most recent entry wins). -/

abbrev Path := List String

/-- Go string concatenation `path + suffix` on a rendered path: the suffix
attaches to the last component.  All paths the driver concatenates onto are
non-empty (they start at the driver's root directory). -/
def appendStr : Path → String → Path
  | [], suf => [suf]
  | [x], suf => [x ++ suf]
  | x :: xs, suf => x :: appendStr xs suf

/-- All ancestors of a path, from the root down, the path itself included. -/
def pathInits : Path → List Path
  | [] => [[]]
  | x :: xs => [] :: (pathInits xs).map (x :: ·)

structure FS where
  dirs : List Path
  files : List (Path × List Char)
deriving DecidableEq

def FS.isDir (fs : FS) (p : Path) : Bool := fs.dirs.contains p

def FS.lookupFile (fs : FS) (p : Path) : Option (List Char) :=
  (fs.files.find? (fun e => e.1 == p)).map (fun e => e.2)

def FS.isFile (fs : FS) (p : Path) : Bool := (fs.lookupFile p).isSome

inductive FileMode where
  | dir
  | regular
deriving DecidableEq

/-- `os.Stat`: the mode of an existing entry, `none` for does-not-exist. -/
def osStat (fs : FS) (p : Path) : Option FileMode :=
  if fs.isDir p then some .dir
  else if fs.isFile p then some .regular
  else none

/-- The source's `stat` helper (lines 158-168): probe the path as given and,
if it does not exist, the same path with `".json"` appended.  -/
def stat (fs : FS) (p : Path) : Option FileMode :=
  match osStat fs p with
  | some fi => some fi
  | none => osStat fs (appendStr p ".json")

/-- `os.MkdirAll(p, 0755)`: creates `p` and every missing ancestor; fails when
some ancestor (or `p` itself) already exists as a regular file. -/
def FS.mkdirAll (fs : FS) (p : Path) : Option FS :=
  if (pathInits p).any (fun q => fs.isFile q) then none
  else some { fs with dirs := pathInits p ++ fs.dirs }

/-- Install (create or overwrite) a file. -/
def FS.setFile (fs : FS) (p : Path) (b : List Char) : FS :=
  { fs with files := (p, b) :: fs.files }

/-- Drop every entry for a file path. -/
def FS.eraseFile (fs : FS) (p : Path) : FS :=
  { fs with files := fs.files.filter (fun e => !(e.1 == p)) }

/-- `os.WriteFile(p, b, 0644)`: create-or-truncate; fails when `p` is a
directory or its parent directory does not exist. -/
def FS.writeFile (fs : FS) (p : Path) (b : List Char) : Option FS :=
  if fs.isDir p then none
  else if fs.isDir p.dropLast then fs.setFile p b else none

/-- `os.Rename(src, dst)`: atomic replacement of `dst` by `src`; fails when
`src` is not a regular file or `dst` is a directory. -/
def FS.rename (fs : FS) (src dst : Path) : Option FS :=
  match fs.lookupFile src with
  | none => none
  | some b => if fs.isDir dst then none else some ((fs.eraseFile src).setFile dst b)

/-- `os.RemoveAll(p)`: removes `p` and everything below it; succeeds (as a
no-op) when `p` does not exist. -/
def FS.removeAll (fs : FS) (p : Path) : FS :=
  { dirs := fs.dirs.filter (fun q => !(p.isPrefixOf q)),
    files := fs.files.filter (fun e => !(p.isPrefixOf e.1)) }

/-- `os.ReadFile(p)`: the contents of a regular file; fails on a directory or
a missing path. -/
def FS.readFile (fs : FS) (p : Path) : Option (List Char) :=
  if fs.isDir p then none else fs.lookupFile p

/-- Lexicographic order on character lists, by code point. -/
def charsLe : List Char → List Char → Bool
  | a :: as, b :: bs =>
    if a.toNat < b.toNat then true
    else if b.toNat < a.toNat then false
    else charsLe as bs
  | _ :: _, [] => false
  | _, _ => true

def nameLe (s t : String) : Bool := charsLe s.data t.data

/-- Insert into a name list kept in sorted order. -/
def insertSorted (s : String) : List String → List String
  | [] => [s]
  | x :: xs => if nameLe s x then s :: x :: xs else x :: insertSorted s xs

def sortNames (l : List String) : List String := l.foldr insertSorted []

/-- The name of `q` when it sits directly inside directory `p`. -/
def childOf (p q : Path) : Option String :=
  if p.isPrefixOf q && q.length == p.length + 1 then q.getLast? else none

/-- Drop duplicate names, keeping first occurrences. -/
def dedupAux (seen : List String) : List String → List String
  | [] => []
  | x :: xs => if seen.contains x then dedupAux seen xs else x :: dedupAux (x :: seen) xs

def dedupNames (l : List String) : List String := dedupAux [] l

/-- `os.ReadDir(p)`: the entries directly inside `p` (files and
subdirectories), sorted by name; the empty list when `p` does not exist,
matching `ReadAll`'s discarded error at line 137. -/
def FS.readDir (fs : FS) (p : Path) : List String :=
  sortNames (dedupNames
    (fs.dirs.filterMap (childOf p) ++ fs.files.filterMap (fun e => childOf p e.1)))

/-! ### The driver operations

Each operation takes the driver's root directory (`d.dir`, a non-empty path)
and the filesystem, returning the Go function's error outcome and the new
filesystem.  I/O faults beyond the ones the state itself forces are injected
through `Faults`: a flagged primitive fails instead of acting, and a failed
temp-file write may leave arbitrary debris bytes in the temp file. -/

inductive DbErr where
  | missingCollection
  | missingResource
  | marshalErr
  | mkdirErr
  | tmpWriteErr
  | renameErr
  | notFound
  | readErr
  | decodeErr
deriving DecidableEq

deriving instance DecidableEq for Except

structure Faults where
  mkdirFail : Bool
  writeFail : Bool
  writeDebris : List Char
  renameFail : Bool
deriving DecidableEq

def noFaults : Faults := ⟨false, false, [], false⟩

/-- `Driver.Write` (lines 60-89): validate the names, marshal, ensure the
collection directory, write `<resource>.json.tmp`, rename it over
`<resource>.json`. -/
def Write (root : Path) (fs : FS) (fl : Faults) (collection resource : String)
    (v : GoValue) : Except DbErr Unit × FS :=
  if collection = "" then (.error .missingCollection, fs)
  else if resource = "" then (.error .missingResource, fs)
  else
    let dir := root ++ [collection]
    let fnlPath := dir ++ [resource ++ ".json"]
    let tmpPath := appendStr fnlPath ".tmp"
    match marshalIndent v with
    | none => (.error .marshalErr, fs)
    | some b =>
      if fl.mkdirFail then (.error .mkdirErr, fs)
      else
        match fs.mkdirAll dir with
        | none => (.error .mkdirErr, fs)
        | some fs1 =>
          let bb := b ++ ['\n']
          if fl.writeFail then (.error .tmpWriteErr, fs1.setFile tmpPath fl.writeDebris)
          else
            match fs1.writeFile tmpPath bb with
            | none => (.error .tmpWriteErr, fs1)
            | some fs2 =>
              if fl.renameFail then (.error .renameErr, fs2)
              else
                match fs2.rename tmpPath fnlPath with
                | none => (.error .renameErr, fs2)
                | some fs3 => (.ok (), fs3)

/-- `Driver.Delete` (lines 91-109): join collection and resource (empty names
simply drop out), dual-probe stat, then remove a directory as-is or a regular
file through its `".json"`-suffixed name. -/
def Delete (root : Path) (fs : FS) (collection resource : String) :
    Except DbErr Unit × FS :=
  let rel : Path :=
    (if collection = "" then [] else [collection]) ++ (if resource = "" then [] else [resource])
  let dir := root ++ rel
  match stat fs dir with
  | none => (.error .notFound, fs)
  | some .dir => (.ok (), fs.removeAll dir)
  | some .regular => (.ok (), fs.removeAll (appendStr dir ".json"))

/-! ### The decoder: `json.Unmarshal` -/

def isWs (c : Char) : Bool :=
  decide (c = '\r' ∨ c = '\n' ∨ c = '\t' ∨ c = ' ')

def skipWs : List Char → List Char
  | [] => []
  | c :: cs => if isWs c then skipWs cs else c :: cs

/-- Undo a single-character escape (`\uXXXX` is handled separately). -/
def unescape (e : Char) : Option Char :=
  if e = '"' ∨ e = '\\' ∨ e = '/' then some e
  else if e = 'n' then some '\n'
  else if e = 't' then some '\t'
  else if e = 'r' then some '\r'
  else if e = 'b' then some (Char.ofNat 8)
  else if e = 'f' then some (Char.ofNat 12)
  else none

/-- Numeric value of one hexadecimal digit, either case. -/
def hexVal (e : Char) : Option Nat :=
  if 48 ≤ e.toNat ∧ e.toNat ≤ 57 then some (e.toNat - 48)
  else if 97 ≤ e.toNat ∧ e.toNat ≤ 102 then some (e.toNat - 87)
  else if 65 ≤ e.toNat ∧ e.toNat ≤ 70 then some (e.toNat - 55)
  else none

/-- Parse a string body after the opening quote, up to and past the closing
quote.  A `\uXXXX` escape decodes through its four hex digits to the scalar
value they spell; escapes spelling UTF-16 surrogate code units are rejected
rather than recombined or replaced as Go does, a case no `json.Marshal`
output contains (Go never escapes anything above U+2029). -/
def parseStrBody : List Char → Option (List Char × List Char)
  | [] => none
  | c :: rest =>
    if c = '"' then some ([], rest)
    else if c = '\\' then
      match rest with
      | [] => none
      | e :: rest2 =>
        if e = 'u' then
          match rest2 with
          | h1 :: h2 :: h3 :: h4 :: rest3 =>
            match hexVal h1, hexVal h2, hexVal h3, hexVal h4 with
            | some a, some b, some g, some d =>
              if ((a * 16 + b) * 16 + g) * 16 + d < 55296
                  ∨ 57344 ≤ ((a * 16 + b) * 16 + g) * 16 + d then
                (parseStrBody rest3).map
                  (fun p => (Char.ofNat (((a * 16 + b) * 16 + g) * 16 + d) :: p.1, p.2))
              else none
            | _, _, _, _ => none
          | _ => none
        else
          match unescape e with
          | none => none
          | some u => (parseStrBody rest2).map (fun p => (u :: p.1, p.2))
    else if c.toNat < 32 then none
    else (parseStrBody rest).map (fun p => (c :: p.1, p.2))

/-- Parser modes: a JSON value, the elements of a non-empty array (through the
closing `]`), or the fields of a non-empty object (through the closing brace). -/
inductive PMode where
  | value
  | elems
  | fields

/-- The fuel-indexed JSON reader behind `json.Unmarshal`: whitespace-tolerant,
strict about the number grammar.  In `elems`/`fields` mode it returns the
parsed spine together with the input after the closing bracket. -/
def parseF : Nat → PMode → List Char → Option (JValue × List Char)
  | 0, _, _ => none
  | f + 1, .value, cs =>
    match skipWs cs with
    | [] => none
    | c :: cs' =>
      if c = 'n' then
        match cs' with
        | 'u' :: 'l' :: 'l' :: r => some (.null, r)
        | _ => none
      else if c = 't' then
        match cs' with
        | 'r' :: 'u' :: 'e' :: r => some (.boolV true, r)
        | _ => none
      else if c = 'f' then
        match cs' with
        | 'a' :: 'l' :: 's' :: 'e' :: r => some (.boolV false, r)
        | _ => none
      else if c = '"' then
        (parseStrBody cs').map (fun p => (.str p.1, p.2))
      else if c = '[' then
        match skipWs cs' with
        | [] => none
        | c2 :: r =>
          if c2 = ']' then some (.arr .sNil, r)
          else
            match parseF f .elems cs' with
            | some (s, r2) => some (.arr s, r2)
            | none => none
      else if c = '{' then
        match skipWs cs' with
        | [] => none
        | c2 :: r =>
          if c2 = '}' then some (.obj .fNil, r)
          else
            match parseF f .fields cs' with
            | some (s, r2) => some (.obj s, r2)
            | none => none
      else if c = '-' || c.isDigit then
        let lit := (c :: cs').takeWhile numChar
        if validNumLit lit then some (.num lit, (c :: cs').dropWhile numChar) else none
      else none
  | f + 1, .elems, cs =>
    match parseF f .value cs with
    | none => none
    | some (v, r) =>
      match skipWs r with
      | [] => none
      | c2 :: r2 =>
        if c2 = ',' then
          match parseF f .elems r2 with
          | some (s, r3) => some (.sCons v s, r3)
          | none => none
        else if c2 = ']' then some (.sCons v .sNil, r2)
        else none
  | f + 1, .fields, cs =>
    match skipWs cs with
    | [] => none
    | c0 :: r =>
      if c0 = '"' then
        match parseStrBody r with
        | none => none
        | some (k, r1) =>
          match skipWs r1 with
          | [] => none
          | c1 :: r2 =>
            if c1 = ':' then
              match parseF f .value r2 with
              | none => none
              | some (v, r3) =>
                match skipWs r3 with
                | [] => none
                | c3 :: r4 =>
                  if c3 = ',' then
                    match parseF f .fields r4 with
                    | some (s, r5) => some (.fCons k v s, r5)
                    | none => none
                  else if c3 = '}' then some (.fCons k v .fNil, r4)
                  else none
            else none
      else none

/-- `json.Unmarshal(b, ...)`: parse one JSON document; only trailing
whitespace may follow it. -/
def unmarshal (b : List Char) : Option JValue :=
  match parseF (b.length + 1) .value b with
  | some (v, rest) => if (skipWs rest).isEmpty then some v else none
  | none => none

/-- `Driver.Read` (lines 110-126): validate the names, dual-probe stat the
joined path, then read and decode the `".json"`-suffixed file. -/
def Read (root : Path) (fs : FS) (collection resource : String) :
    Except DbErr JValue :=
  if collection = "" then .error .missingCollection
  else if resource = "" then .error .missingResource
  else
    let record := root ++ [collection] ++ [resource]
    match stat fs record with
    | none => .error .notFound
    | some _ =>
      match fs.readFile (appendStr record ".json") with
      | none => .error .readErr
      | some b =>
        match unmarshal b with
        | some v => .ok v
        | none => .error .decodeErr

/-- A per-path read-fault set for `ReadAll`, plus the reads the state itself
refuses (directories). -/
def readFileF (fs : FS) (flt : List Path) (p : Path) : Option (List Char) :=
  if flt.contains p then none else fs.readFile p

/-- The loop of `Driver.ReadAll` (lines 139-145): read every entry in order,
aborting on the first failure. -/
def readFilesLoop (fs : FS) (flt : List Path) (dir : Path) :
    List String → Option (List (List Char))
  | [] => some []
  | n :: rest =>
    match readFileF fs flt (dir ++ [n]) with
    | none => none
    | some b => (readFilesLoop fs flt dir rest).map (fun l => b :: l)

/-- `Driver.ReadAll` (lines 128-147): validate the collection name, dual-probe
stat the collection directory, list it (a listing error is discarded), then
read every entry in full. -/
def ReadAll (root : Path) (fs : FS) (flt : List Path) (collection : String) :
    Except DbErr (List (List Char)) :=
  if collection = "" then .error .missingCollection
  else
    let dir := root ++ [collection]
    match stat fs dir with
    | none => .error .notFound
    | some _ =>
      match readFilesLoop fs flt dir (fs.readDir dir) with
      | none => .error .readErr
      | some records => .ok records

/-! ### The lock registry

`getOrCreateMutex` (lines 149-156) looks the collection's mutex up in
`d.mutexes` and installs a fresh one when absent.  The registry is a name-to-
mutex-identity map plus an allocation counter standing for `&sync.Mutex\x7b\x7d`
freshness.  The source acquires no lock around this sequence: the Driver's
`mutex` field (line 25) is declared but never locked anywhere in `main.go`.
`stepMutex` therefore exposes the sequence as two separately schedulable
steps - the map probe, and the create-and-install - and `runSched` runs two
callers under an explicit interleaving. -/

structure Reg where
  mutexes : List (String × Nat)
  nextId : Nat
deriving DecidableEq

def lookupMutex (reg : Reg) (c : String) : Option Nat :=
  ((reg.mutexes.find? (fun e => e.1 == c)).map (fun e => e.2))

/-- The whole of `getOrCreateMutex` run without interference. -/
def getOrCreateMutex (reg : Reg) (c : String) : Nat × Reg :=
  match lookupMutex reg c with
  | some m => (m, reg)
  | none => (reg.nextId, ⟨(c, reg.nextId) :: reg.mutexes, reg.nextId + 1⟩)

inductive TPhase where
  | start
  | install
  | finished (id : Nat)
deriving DecidableEq

/-- One unguarded step of a caller inside `getOrCreateMutex`. -/
def stepMutex (c : String) : Reg × TPhase → Reg × TPhase
  | (reg, .start) =>
    match lookupMutex reg c with
    | some m => (reg, .finished m)
    | none => (reg, .install)
  | (reg, .install) => (⟨(c, reg.nextId) :: reg.mutexes, reg.nextId + 1⟩, .finished reg.nextId)
  | (reg, .finished m) => (reg, .finished m)

structure RaceSt where
  reg : Reg
  t0 : TPhase
  t1 : TPhase
deriving DecidableEq

/-- Run two concurrent `getOrCreateMutex(c)` callers under a schedule:
`false` steps caller 0, `true` steps caller 1. -/
def runSched (c : String) : List Bool → RaceSt → RaceSt
  | [], s => s
  | b :: bs, s =>
    if b then
      let (r, p) := stepMutex c (s.reg, s.t1)
      runSched c bs ⟨r, s.t0, p⟩
    else
      let (r, p) := stepMutex c (s.reg, s.t0)
      runSched c bs ⟨r, p, s.t1⟩

/-- Fuel sufficient to parse a value back: one unit per parser call. -/
def fuelV : JValue → Nat
  | .null => 1
  | .boolV _ => 1
  | .num _ => 1
  | .str _ => 1
  | .arr s => fuelV s + 1
  | .obj s => fuelV s + 1
  | .sNil => 1
  | .fNil => 1
  | .sCons h t => fuelV h + fuelV t + 1
  | .fCons _ v t => fuelV v + fuelV t + 1

/-- The input after a parsed token must not extend a number literal. -/
def restOk : List Char → Bool
  | [] => true
  | c :: _ => !(numChar c)

/-! ### Concrete states used in the witness theorems -/

def root0 : Path := ["db"]

def jSample : JValue :=
  .obj (.fCons "Name".data (.str "John".data)
    (.fCons "Age".data (.num "34".data)
      (.fCons "Tags".data (.arr (.sCons (.str "a".data) (.sCons (.str "b".data) .sNil)))
        (.fCons "A<b>&".data (.str ("q\"w\\e\n\t".data ++ [Char.ofNat 1, Char.ofNat 8232]))
          (.fCons "Empty".data (.obj .fNil) .fNil)))))

def fsEmpty : FS := ⟨[["db"]], []⟩

def fsUsers : FS :=
  ⟨[["db"], ["db", "users"]], [(["db", "users", "Ashlie.json"], "old".data)]⟩

def fsSub : FS :=
  ⟨[["db"], ["db", "users"], ["db", "users", "sub"]],
    [(["db", "users", "a.json"], "A".data), (["db", "users", "b.json"], "B".data)]⟩

/-! ### Codec lemmas -/

theorem skipWs_cons_not {c : Char} (cs : List Char) (h : isWs c = false) :
    skipWs (c :: cs) = c :: cs := by
  simp [skipWs, h]

theorem skipWs_cons_ws {c : Char} (cs : List Char) (h : isWs c = true) :
    skipWs (c :: cs) = skipWs cs := by
  simp [skipWs, h]

theorem skipWs_ws_pre {pre : List Char} (hp : ∀ c ∈ pre, isWs c = true) (cs : List Char) :
    skipWs (pre ++ cs) = skipWs cs := by
  induction pre with
  | nil => rfl
  | cons c p ih =>
    have hc := hp c (by simp)
    simp only [List.cons_append, skipWs, hc, if_pos]
    exact ih (fun d hd => hp d (by simp [hd]))

theorem indentC_ws (d : Nat) : ∀ c ∈ indentC d, isWs c = true := by
  intro c hc
  have : c = '\t' := List.eq_of_mem_replicate hc
  subst this
  decide

theorem ws_elim {c : Char} (h : isWs c = true) :
    c = '\r' ∨ c = '\n' ∨ c = '\t' ∨ c = ' ' :=
  of_decide_eq_true h

theorem digit_not_ws {c : Char} (h : c.isDigit = true) : isWs c = false := by
  cases hw : isWs c with
  | false => rfl
  | true =>
    rcases ws_elim hw with h' | h' | h' | h' <;> (subst h'; exact absurd h (by decide))

theorem takeWhile_app {p : Char → Bool} {xs rest : List Char}
    (hx : ∀ c ∈ xs, p c = true)
    (hstop : ∀ c t, rest = c :: t → p c = false) :
    (xs ++ rest).takeWhile p = xs ∧ (xs ++ rest).dropWhile p = rest := by
  induction xs with
  | nil =>
    cases rest with
    | nil => simp
    | cons c t =>
      have := hstop c t rfl
      simp [List.takeWhile_cons, List.dropWhile_cons, this]
  | cons c xs ih =>
    have hc := hx c (by simp)
    have := ih (fun d hd => hx d (by simp [hd]))
    simp [List.takeWhile_cons, List.dropWhile_cons, hc, this]

theorem hexVal_hexDig {n : Nat} (h : n < 16) : hexVal (hexDig n) = some n := by
  interval_cases n <;> decide

theorem parseStrBody_quote (rest : List Char) :
    parseStrBody ('"' :: rest) = some ([], rest) := by
  rw [parseStrBody.eq_def]
  simp

theorem parseStrBody_escSimple {e : Char} (he : ¬e = 'u') (rest : List Char) :
    parseStrBody ('\\' :: e :: rest) =
      match unescape e with
      | none => none
      | some u => (parseStrBody rest).map (fun p => (u :: p.1, p.2)) := by
  rw [parseStrBody.eq_def]
  simp [he]

theorem parseStrBody_escHex (h1 h2 h3 h4 : Char) (rest : List Char) :
    parseStrBody ('\\' :: 'u' :: h1 :: h2 :: h3 :: h4 :: rest) =
      match hexVal h1, hexVal h2, hexVal h3, hexVal h4 with
      | some a, some b, some g, some d =>
        if ((a * 16 + b) * 16 + g) * 16 + d < 55296
            ∨ 57344 ≤ ((a * 16 + b) * 16 + g) * 16 + d then
          (parseStrBody rest).map
            (fun p => (Char.ofNat (((a * 16 + b) * 16 + g) * 16 + d) :: p.1, p.2))
        else none
      | _, _, _, _ => none := by
  rw [parseStrBody.eq_def]
  simp

theorem parseStrBody_raw {c : Char} (hq : ¬c = '"') (hb : ¬c = '\\')
    (hc : ¬c.toNat < 32) (rest : List Char) :
    parseStrBody (c :: rest) = (parseStrBody rest).map (fun p => (c :: p.1, p.2)) := by
  rw [parseStrBody.eq_def]
  simp [hq, hb, hc]

/-- Decoding one encoded character: whatever `escapeChar` wrote for `c`, the
string-body parser turns back into `c` and carries on. -/
theorem parseStrBody_escapeChar (c : Char) (cs : List Char) :
    parseStrBody (escapeChar c ++ cs) =
      (parseStrBody cs).map (fun p => (c :: p.1, p.2)) := by
  have hu : ¬('"' : Char) = 'u' ∧ ¬('\\' : Char) = 'u' ∧ ¬('n' : Char) = 'u'
      ∧ ¬('r' : Char) = 'u' ∧ ¬('t' : Char) = 'u' := by decide
  by_cases hq : c = '"'
  · subst hq; simp [escapeChar, parseStrBody_escSimple hu.1, unescape]
  by_cases hb : c = '\\'
  · subst hb; simp [escapeChar, parseStrBody_escSimple hu.2.1, unescape]
  by_cases hn : c = '\n'
  · subst hn; simp [escapeChar, parseStrBody_escSimple hu.2.2.1, unescape]
  by_cases hr : c = '\r'
  · subst hr; simp [escapeChar, parseStrBody_escSimple hu.2.2.2.1, unescape]
  by_cases ht : c = '\t'
  · subst ht; simp [escapeChar, parseStrBody_escSimple hu.2.2.2.2, unescape]
  by_cases hctl : c.toNat < 32
  · have hhi : c.toNat / 16 < 16 := by omega
    have hlo : c.toNat % 16 < 16 := by omega
    have hv16 : c.toNat / 16 * 16 + c.toNat % 16 = c.toNat := by omega
    have hsc : c.toNat < 55296 ∨ 57344 ≤ c.toNat := Or.inl (by omega)
    simp [escapeChar, hq, hb, hn, hr, ht, hctl, parseStrBody_escHex,
      show hexVal '0' = some 0 from by decide,
      hexVal_hexDig hhi, hexVal_hexDig hlo, hv16, hsc, Char.ofNat_toNat]
  by_cases hlt : c = '<'
  · subst hlt
    simp [escapeChar, hctl, parseStrBody_escHex,
      show hexVal '0' = some 0 from by decide, show hexVal '3' = some 3 from by decide,
      show hexVal 'c' = some 12 from by decide,
      show Char.ofNat 60 = '<' from by decide]
  by_cases hgt : c = '>'
  · subst hgt
    simp [escapeChar, hctl, hlt, parseStrBody_escHex,
      show hexVal '0' = some 0 from by decide, show hexVal '3' = some 3 from by decide,
      show hexVal 'e' = some 14 from by decide,
      show Char.ofNat 62 = '>' from by decide]
  by_cases hamp : c = '&'
  · subst hamp
    simp [escapeChar, hctl, hlt, hgt, parseStrBody_escHex,
      show hexVal '0' = some 0 from by decide, show hexVal '2' = some 2 from by decide,
      show hexVal '6' = some 6 from by decide,
      show Char.ofNat 38 = '&' from by decide]
  by_cases h28 : c.toNat = 8232
  · simp [escapeChar, hq, hb, hn, hr, ht, hctl, hlt, hgt, hamp, h28, parseStrBody_escHex,
      show hexVal '2' = some 2 from by decide, show hexVal '0' = some 0 from by decide,
      show hexVal '8' = some 8 from by decide,
      show Char.ofNat 8232 = c from h28 ▸ Char.ofNat_toNat c]
  by_cases h29 : c.toNat = 8233
  · simp [escapeChar, hq, hb, hn, hr, ht, hctl, hlt, hgt, hamp, h28, h29, parseStrBody_escHex,
      show hexVal '2' = some 2 from by decide, show hexVal '0' = some 0 from by decide,
      show hexVal '9' = some 9 from by decide,
      show Char.ofNat 8233 = c from h29 ▸ Char.ofNat_toNat c]
  · rw [show escapeChar c = [c] from by
        simp [escapeChar, hq, hb, hn, hr, ht, hctl, hlt, hgt, hamp, h28, h29],
      List.singleton_append, parseStrBody_raw hq hb hctl]

/-- Decoding an encoded string body: the parser inverts `escStr` on every
string, however much escaping the encoder had to do. -/
theorem parseStrBody_escStr (s : List Char) (rest : List Char) :
    parseStrBody (escStr s ++ '"' :: rest) = some (s, rest) := by
  induction s with
  | nil =>
    rw [show escStr [] = [] from rfl, List.nil_append, parseStrBody_quote]
  | cons c cs ih =>
    rw [escStr, List.append_assoc, parseStrBody_escapeChar, ih]
    rfl

theorem numChar_of_digit {c : Char} (h : c.isDigit = true) : numChar c = true := by
  simp [numChar, h]

theorem takeWhile_digits_num (l : List Char) :
    ∀ c ∈ l.takeWhile Char.isDigit, numChar c = true :=
  fun _ hc => numChar_of_digit (List.mem_takeWhile_imp hc)

theorem numIntRest_decomp {l r : List Char} (h : numIntRest l = some r) :
    ∃ pre, l = pre ++ r ∧ (∀ c ∈ pre, numChar c = true) ∧
      ∃ c0 t0, pre = c0 :: t0 ∧ c0.isDigit = true := by
  cases l with
  | nil => simp [numIntRest] at h
  | cons c rest =>
    by_cases hc : c = '0'
    · subst hc
      simp only [numIntRest, eq_self_iff_true, if_true, Option.some.injEq] at h
      subst h
      exact ⟨['0'], rfl, by decide, '0', [], rfl, by decide⟩
    · by_cases hd : c.isDigit = true
      · simp only [numIntRest, hc, if_false, hd, if_true, Option.some.injEq] at h
        subst h
        refine ⟨c :: rest.takeWhile Char.isDigit, ?_, ?_, c, _, rfl, hd⟩
        · simp [List.takeWhile_append_dropWhile]
        · intro d hd'
          rcases List.mem_cons.mp hd' with h' | h'
          · subst h'; exact numChar_of_digit hd
          · exact takeWhile_digits_num rest d h'
      · simp [numIntRest, hc, hd] at h

theorem numFracRest_decomp {l r : List Char} (h : numFracRest l = some r) :
    ∃ pre, l = pre ++ r ∧ (∀ c ∈ pre, numChar c = true) := by
  cases l with
  | nil =>
    simp only [numFracRest, Option.some.injEq] at h
    subst h
    exact ⟨[], rfl, by simp⟩
  | cons c rest =>
    by_cases hc : c = '.'
    · subst hc
      cases rest with
      | nil => simp [numFracRest] at h
      | cons d t =>
        by_cases hd : d.isDigit = true
        · simp only [numFracRest, eq_self_iff_true, if_true, hd, Option.some.injEq] at h
          subst h
          refine ⟨'.' :: (d :: t).takeWhile Char.isDigit, ?_, ?_⟩
          · simp [List.takeWhile_append_dropWhile]
          · intro e he
            rcases List.mem_cons.mp he with h' | h'
            · subst h'; decide
            · exact takeWhile_digits_num (d :: t) e h'
        · simp [numFracRest, hd] at h
    · simp only [numFracRest, hc, if_false, Option.some.injEq] at h
      subst h
      exact ⟨[], rfl, by simp⟩

theorem numExpDigits_decomp {l r : List Char} (h : numExpDigits l = some r) :
    ∃ pre, l = pre ++ r ∧ (∀ c ∈ pre, numChar c = true) := by
  cases l with
  | nil => simp [numExpDigits] at h
  | cons d rest =>
    by_cases hd : d.isDigit = true
    · simp only [numExpDigits, hd, if_true, Option.some.injEq] at h
      subst h
      refine ⟨d :: rest.takeWhile Char.isDigit, ?_, ?_⟩
      · simp [List.takeWhile_append_dropWhile]
      · intro e he
        rcases List.mem_cons.mp he with h' | h'
        · subst h'; exact numChar_of_digit hd
        · exact takeWhile_digits_num rest e h'
    · simp [numExpDigits, hd] at h

theorem numExpRest_decomp {l r : List Char} (h : numExpRest l = some r) :
    ∃ pre, l = pre ++ r ∧ (∀ c ∈ pre, numChar c = true) := by
  cases l with
  | nil =>
    simp only [numExpRest, Option.some.injEq] at h
    subst h
    exact ⟨[], rfl, by simp⟩
  | cons c rest =>
    by_cases hc : c = 'e' ∨ c = 'E'
    · cases rest with
      | nil => simp [numExpRest, hc] at h
      | cons s r2 =>
        by_cases hs : s = '+' ∨ s = '-'
        · simp only [numExpRest, hc, if_true, hs] at h
          obtain ⟨pre, hpre, hnum⟩ := numExpDigits_decomp h
          refine ⟨c :: s :: pre, by simp [hpre], ?_⟩
          intro e he
          rcases List.mem_cons.mp he with h' | h'
          · subst h'; rcases hc with h'' | h'' <;> (subst h''; decide)
          rcases List.mem_cons.mp h' with h' | h'
          · subst h'; rcases hs with h'' | h'' <;> (subst h''; decide)
          · exact hnum e h'
        · simp only [numExpRest, hc, if_true, hs, if_false] at h
          obtain ⟨pre, hpre, hnum⟩ := numExpDigits_decomp h
          refine ⟨c :: pre, ?_, ?_⟩
          · rw [List.cons_append, ← hpre]
          · intro e he
            rcases List.mem_cons.mp he with h' | h'
            · subst h'; rcases hc with h'' | h'' <;> (subst h''; decide)
            · exact hnum e h'
    · simp only [numExpRest, hc, if_false, Option.some.injEq] at h
      subst h
      exact ⟨[], rfl, by simp⟩

/-- Everything a parser needs to know about a valid number literal: it is
non-empty, starts with `-` or a digit, and consists of number characters. -/
theorem validNum_facts {l : List Char} (h : validNumLit l = true) :
    (∀ c ∈ l, numChar c = true) ∧ ∃ c0 t, l = c0 :: t ∧ (c0 = '-' ∨ c0.isDigit = true) := by
  cases l with
  | nil => simp [validNumLit, numIntRest] at h
  | cons c rest =>
    by_cases hc : c = '-'
    · subst hc
      simp only [validNumLit, eq_self_iff_true, if_true] at h
      split at h
      · exact absurd h (by simp)
      next r1 hInt =>
        split at h
        · exact absurd h (by simp)
        next r2 hFrac =>
          split at h
          · exact absurd h (by simp)
          next r3 hExp =>
            have hr3 : r3 = [] := by simpa [List.isEmpty_iff] using h
            subst hr3
            obtain ⟨p1, hp1, hn1, _⟩ := numIntRest_decomp hInt
            obtain ⟨p2, hp2, hn2⟩ := numFracRest_decomp hFrac
            obtain ⟨p3, hp3, hn3⟩ := numExpRest_decomp hExp
            constructor
            · intro e he
              rcases List.mem_cons.mp he with h' | h'
              · subst h'; decide
              · rw [hp1, hp2, hp3] at h'
                simp only [List.append_nil, List.mem_append] at h'
                rcases h' with h' | h' | h'
                · exact hn1 e h'
                · exact hn2 e h'
                · exact hn3 e h'
            · exact ⟨'-', rest, rfl, Or.inl rfl⟩
    · simp only [validNumLit, hc, if_false] at h
      split at h
      · exact absurd h (by simp)
      next r1 hInt =>
        split at h
        · exact absurd h (by simp)
        next r2 hFrac =>
          split at h
          · exact absurd h (by simp)
          next r3 hExp =>
            have hr3 : r3 = [] := by simpa [List.isEmpty_iff] using h
            subst hr3
            obtain ⟨p1, hp1, hn1, c0, t0, hpc, hdig⟩ := numIntRest_decomp hInt
            obtain ⟨p2, hp2, hn2⟩ := numFracRest_decomp hFrac
            obtain ⟨p3, hp3, hn3⟩ := numExpRest_decomp hExp
            constructor
            · intro e he
              rw [hp1, hp2, hp3] at he
              simp only [List.append_nil, List.mem_append] at he
              rcases he with h' | h' | h'
              · exact hn1 e h'
              · exact hn2 e h'
              · exact hn3 e h'
            · refine ⟨c, rest, rfl, Or.inr ?_⟩
              rw [hpc, List.cons_append] at hp1
              injection hp1 with h1 _
              rw [h1]
              exact hdig

theorem numStart_facts {c : Char} (h : c = '-' ∨ c.isDigit = true) :
    isWs c = false ∧ ¬c = 'n' ∧ ¬c = 't' ∧ ¬c = 'f' ∧ ¬c = '"' ∧ ¬c = '[' ∧
      ¬c = '{' ∧ ¬c = ']' ∧ ¬c = '}' := by
  rcases h with h | h
  · subst h; exact ⟨by decide, by decide, by decide, by decide, by decide, by decide,
      by decide, by decide, by decide⟩
  · refine ⟨digit_not_ws h, ?_, ?_, ?_, ?_, ?_, ?_, ?_, ?_⟩ <;>
      (intro e; subst e; exact absurd h (by decide))

/-- Parsing a rendered number literal recovers it and stops at its end. -/
theorem parseF_num {lit : List Char} (h : validNumLit lit = true) (f : Nat)
    {rest : List Char} (hr : restOk rest = true) :
    parseF (f + 1) .value (lit ++ rest) = some (.num lit, rest) := by
  obtain ⟨hall, c0, t0, hl, hc0⟩ := validNum_facts h
  subst hl
  obtain ⟨hws, hn, ht, hf, hq, hbk, hbc, _, _⟩ := numStart_facts hc0
  have hstop : ∀ c t, rest = c :: t → numChar c = false := by
    intro c t he
    subst he
    simpa [restOk] using hr
  have htk := takeWhile_app (p := numChar) hall hstop
  simp only [List.cons_append] at htk
  have hg : (decide (c0 = '-') || c0.isDigit) = true := by
    rcases hc0 with h' | h' <;> simp [h']
  simp only [parseF, List.cons_append, skipWs_cons_not _ hws, if_neg hn, if_neg ht,
    if_neg hf, if_neg hq, if_neg hbk, if_neg hbc, hg, eq_self_iff_true, if_true,
    htk.1, htk.2, h]

/-- Every rendered value starts with a non-whitespace character that closes
nothing. -/
theorem printV_head {v : JValue} (d : Nat) (hwf : wf v = true) (hv : isVal v = true) :
    ∃ c t, printV v d = c :: t ∧ isWs c = false ∧ ¬c = ']' ∧ ¬c = '}' := by
  cases v with
  | null => refine ⟨'n', _, rfl, ?_, ?_, ?_⟩ <;> decide
  | boolV b =>
    cases b with
    | true => refine ⟨'t', _, rfl, ?_, ?_, ?_⟩ <;> decide
    | false => refine ⟨'f', _, rfl, ?_, ?_, ?_⟩ <;> decide
  | num lit =>
    have hval : validNumLit lit = true := by simpa [wf] using hwf
    obtain ⟨_, c0, t0, hl, hc0⟩ := validNum_facts hval
    obtain ⟨hws, _, _, _, _, _, _, hbr, hbc⟩ := numStart_facts hc0
    exact ⟨c0, t0, by simp [printV, hl], hws, hbr, hbc⟩
  | str s => refine ⟨'"', _, rfl, ?_, ?_, ?_⟩ <;> decide
  | arr s => cases s <;> (refine ⟨'[', _, rfl, ?_, ?_, ?_⟩ <;> decide)
  | obj s => cases s <;> (refine ⟨'{', _, rfl, ?_, ?_, ?_⟩ <;> decide)
  | sNil => simp [isVal] at hv
  | sCons h t => simp [isVal] at hv
  | fNil => simp [isVal] at hv
  | fCons k v t => simp [isVal] at hv

/-- A rendered non-empty array spine is its indentation followed by a
character that opens a value. -/
theorem spine_head {h t : JValue} (d : Nat) (hwf : wf h = true) (hv : isVal h = true) :
    ∃ c l, printV (.sCons h t) d = indentC d ++ (c :: l) ∧
      isWs c = false ∧ ¬c = ']' ∧ ¬c = '}' := by
  obtain ⟨c, l, hp, hws, hbr, hbc⟩ := printV_head (v := h) d hwf hv
  cases t with
  | sNil => exact ⟨c, l, by simp [printV, hp], hws, hbr, hbc⟩
  | sCons h2 t2 =>
    exact ⟨c, l ++ ',' :: '\n' :: printV (.sCons h2 t2) d, by simp [printV, hp], hws, hbr, hbc⟩
  | null => exact ⟨c, l ++ ',' :: '\n' :: printV .null d, by simp [printV, hp], hws, hbr, hbc⟩
  | boolV b =>
    exact ⟨c, l ++ ',' :: '\n' :: printV (.boolV b) d, by simp [printV, hp], hws, hbr, hbc⟩
  | num lit =>
    exact ⟨c, l ++ ',' :: '\n' :: printV (.num lit) d, by simp [printV, hp], hws, hbr, hbc⟩
  | str s =>
    exact ⟨c, l ++ ',' :: '\n' :: printV (.str s) d, by simp [printV, hp], hws, hbr, hbc⟩
  | arr s => exact ⟨c, l ++ ',' :: '\n' :: printV (.arr s) d, by simp [printV, hp], hws, hbr, hbc⟩
  | obj s => exact ⟨c, l ++ ',' :: '\n' :: printV (.obj s) d, by simp [printV, hp], hws, hbr, hbc⟩
  | fNil => exact ⟨c, l ++ ',' :: '\n' :: printV .fNil d, by simp [printV, hp], hws, hbr, hbc⟩
  | fCons k v t2 =>
    exact ⟨c, l ++ ',' :: '\n' :: printV (.fCons k v t2) d, by simp [printV, hp], hws, hbr, hbc⟩

/-- A rendered non-empty field spine is its indentation followed by the
opening quote of its first key. -/
theorem fspine_head (k : List Char) (v t : JValue) (d : Nat) :
    ∃ l, printV (.fCons k v t) d = indentC d ++ ('"' :: l) := by
  cases t with
  | fNil => exact ⟨escStr k ++ '"' :: ':' :: ' ' :: printV v d, by simp [printV]⟩
  | fCons k2 v2 t2 =>
    exact ⟨escStr k ++ '"' :: ':' :: ' ' :: (printV v d ++ ',' :: '\n' :: printV (.fCons k2 v2 t2) d),
      by simp [printV]⟩
  | null => exact ⟨escStr k ++ '"' :: ':' :: ' ' :: (printV v d ++ ',' :: '\n' :: printV .null d),
      by simp [printV]⟩
  | boolV b =>
    exact ⟨escStr k ++ '"' :: ':' :: ' ' :: (printV v d ++ ',' :: '\n' :: printV (.boolV b) d),
      by simp [printV]⟩
  | num lit =>
    exact ⟨escStr k ++ '"' :: ':' :: ' ' :: (printV v d ++ ',' :: '\n' :: printV (.num lit) d),
      by simp [printV]⟩
  | str s =>
    exact ⟨escStr k ++ '"' :: ':' :: ' ' :: (printV v d ++ ',' :: '\n' :: printV (.str s) d),
      by simp [printV]⟩
  | arr s =>
    exact ⟨escStr k ++ '"' :: ':' :: ' ' :: (printV v d ++ ',' :: '\n' :: printV (.arr s) d),
      by simp [printV]⟩
  | obj s =>
    exact ⟨escStr k ++ '"' :: ':' :: ' ' :: (printV v d ++ ',' :: '\n' :: printV (.obj s) d),
      by simp [printV]⟩
  | sNil =>
    exact ⟨escStr k ++ '"' :: ':' :: ' ' :: (printV v d ++ ',' :: '\n' :: printV .sNil d),
      by simp [printV]⟩
  | sCons h2 t2 =>
    exact ⟨escStr k ++ '"' :: ':' :: ' ' :: (printV v d ++ ',' :: '\n' :: printV (.sCons h2 t2) d),
      by simp [printV]⟩

theorem parse_value_ws (pre : List Char) (hp : ∀ c ∈ pre, isWs c = true) (f : Nat)
    (cs : List Char) : parseF f .value (pre ++ cs) = parseF f .value cs := by
  cases f with
  | zero => rfl
  | succ f => simp only [parseF, skipWs_ws_pre hp]

theorem parse_elems_ws (pre : List Char) (hp : ∀ c ∈ pre, isWs c = true) (f : Nat)
    (cs : List Char) : parseF f .elems (pre ++ cs) = parseF f .elems cs := by
  cases f with
  | zero => rfl
  | succ f => simp only [parseF, parse_value_ws _ hp]

theorem parse_fields_ws (pre : List Char) (hp : ∀ c ∈ pre, isWs c = true) (f : Nat)
    (cs : List Char) : parseF f .fields (pre ++ cs) = parseF f .fields cs := by
  cases f with
  | zero => rfl
  | succ f => simp only [parseF, skipWs_ws_pre hp]

theorem fuelV_pos (v : JValue) : 1 ≤ fuelV v := by
  cases v <;> simp [fuelV]

/-- The codec round-trip, by induction over the value: parsing a rendered
value (or a rendered non-empty spine up to its closing bracket) recovers
exactly that value and leaves exactly the trailing input. -/
theorem parse_printV (v : JValue) : ∀ (f d : Nat) (rest : List Char),
    (wf v = true → isVal v = true → fuelV v ≤ f → restOk rest = true →
      parseF f .value (printV v d ++ rest) = some (v, rest))
    ∧ (wf v = true → isArrSpine v = true → ¬v = .sNil → fuelV v ≤ f →
      parseF f .elems (printV v (d + 1) ++ '\n' :: (indentC d ++ ']' :: rest)) = some (v, rest))
    ∧ (wf v = true → isFieldSpine v = true → ¬v = .fNil → fuelV v ≤ f →
      parseF f .fields (printV v (d + 1) ++ '\n' :: (indentC d ++ '}' :: rest)) = some (v, rest)) := by
  induction v with
  | null =>
    intro f d rest
    refine ⟨?_, ?_, ?_⟩
    · intro _ _ hf _
      obtain ⟨f', rfl⟩ : ∃ f', f = f' + 1 := ⟨f - 1, by simp [fuelV] at hf; omega⟩
      simp only [printV, List.cons_append, List.nil_append, parseF]
      rw [skipWs_cons_not _ (by decide)]
      simp
    · intro _ hsp _ _; simp [isArrSpine] at hsp
    · intro _ hsp _ _; simp [isFieldSpine] at hsp
  | boolV b =>
    intro f d rest
    refine ⟨?_, ?_, ?_⟩
    · intro _ _ hf _
      obtain ⟨f', rfl⟩ : ∃ f', f = f' + 1 := ⟨f - 1, by simp [fuelV] at hf; omega⟩
      cases b with
      | true =>
        simp only [printV, List.cons_append, List.nil_append, parseF]
        rw [skipWs_cons_not _ (by decide)]
        simp
      | false =>
        simp only [printV, List.cons_append, List.nil_append, parseF]
        rw [skipWs_cons_not _ (by decide)]
        simp
    · intro _ hsp _ _; simp [isArrSpine] at hsp
    · intro _ hsp _ _; simp [isFieldSpine] at hsp
  | num lit =>
    intro f d rest
    refine ⟨?_, ?_, ?_⟩
    · intro hwf _ hf hrest
      obtain ⟨f', rfl⟩ : ∃ f', f = f' + 1 := ⟨f - 1, by simp [fuelV] at hf; omega⟩
      simp only [printV]
      exact parseF_num (by simpa [wf] using hwf) f' hrest
    · intro _ hsp _ _; simp [isArrSpine] at hsp
    · intro _ hsp _ _; simp [isFieldSpine] at hsp
  | str s =>
    intro f d rest
    refine ⟨?_, ?_, ?_⟩
    · intro _ _ hf hrest
      obtain ⟨f', rfl⟩ : ∃ f', f = f' + 1 := ⟨f - 1, by simp [fuelV] at hf; omega⟩
      simp only [printV, List.cons_append, List.append_assoc,
        List.singleton_append, parseF]
      rw [skipWs_cons_not _ (by decide)]
      simp [parseStrBody_escStr]
    · intro _ hsp _ _; simp [isArrSpine] at hsp
    · intro _ hsp _ _; simp [isFieldSpine] at hsp
  | sNil =>
    intro f d rest
    refine ⟨?_, ?_, ?_⟩
    · intro _ hv _ _; simp [isVal] at hv
    · intro _ _ hne _; exact absurd rfl hne
    · intro _ hsp _ _; simp [isFieldSpine] at hsp
  | fNil =>
    intro f d rest
    refine ⟨?_, ?_, ?_⟩
    · intro _ hv _ _; simp [isVal] at hv
    · intro _ hsp _ _; simp [isArrSpine] at hsp
    · intro _ _ hne _; exact absurd rfl hne
  | arr s ihs =>
    intro f d rest
    refine ⟨?_, ?_, ?_⟩
    · intro hwf _ hf hrest
      have hparts : isArrSpine s = true ∧ wf s = true := by simpa [wf] using hwf
      obtain ⟨f', rfl⟩ : ∃ f', f = f' + 1 := ⟨f - 1, by simp [fuelV] at hf; omega⟩
      by_cases hnil : s = .sNil
      · subst hnil
        simp only [printV, List.cons_append, List.nil_append, parseF]
        rw [skipWs_cons_not _ (by decide)]
        simp only [reduceIte]
        rw [skipWs_cons_not _ (by decide)]
        simp
      · cases s with
        | sCons h2 t2 =>
          obtain ⟨⟨hv2, hw2⟩, hwt2⟩ : (isVal h2 = true ∧ wf h2 = true) ∧ wf t2 = true := by
            have := hparts.2
            simpa [wf] using this
          obtain ⟨ch, lh, hph, hwsh, hbrh, hbch⟩ :=
            spine_head (h := h2) (t := t2) (d + 1) hw2 hv2
          simp only [printV, List.cons_append, parseF]
          rw [show (printV (.sCons h2 t2) (d + 1) ++ '\n' :: (indentC d ++ [']'])) ++ rest
              = printV (.sCons h2 t2) (d + 1) ++ '\n' :: (indentC d ++ ']' :: rest) by simp]
          rw [skipWs_cons_not _ (by decide)]
          have hskcons :
              skipWs ('\n' :: (printV (.sCons h2 t2) (d + 1) ++ '\n' :: (indentC d ++ ']' :: rest)))
              = ch :: (lh ++ '\n' :: (indentC d ++ ']' :: rest)) := by
            rw [skipWs_cons_ws _ (by decide), hph, List.append_assoc, List.cons_append,
              skipWs_ws_pre (indentC_ws (d + 1)), skipWs_cons_not _ hwsh]
          have helems :
              parseF f' .elems ('\n' :: (printV (.sCons h2 t2) (d + 1) ++ '\n' :: (indentC d ++ ']' :: rest)))
              = some (.sCons h2 t2, rest) := by
            have hstep := parse_elems_ws ['\n'] (by decide) f'
              (printV (.sCons h2 t2) (d + 1) ++ '\n' :: (indentC d ++ ']' :: rest))
            rw [List.singleton_append] at hstep
            rw [hstep]
            exact ((ihs f' d rest).2.1) hparts.2 hparts.1 (by simp)
              (by simp only [fuelV] at hf ⊢; omega)
          simp [hskcons, if_neg hbrh, helems]
        | sNil => exact absurd rfl hnil
        | null => simp [isArrSpine] at hparts
        | boolV b => simp [isArrSpine] at hparts
        | num l2 => simp [isArrSpine] at hparts
        | str s2 => simp [isArrSpine] at hparts
        | arr s2 => simp [isArrSpine] at hparts
        | obj s2 => simp [isArrSpine] at hparts
        | fNil => simp [isArrSpine] at hparts
        | fCons k2 v2 t2 => simp [isArrSpine] at hparts
    · intro _ hsp _ _; simp [isArrSpine] at hsp
    · intro _ hsp _ _; simp [isFieldSpine] at hsp
  | obj s ihs =>
    intro f d rest
    refine ⟨?_, ?_, ?_⟩
    · intro hwf _ hf hrest
      have hparts : isFieldSpine s = true ∧ wf s = true := by simpa [wf] using hwf
      obtain ⟨f', rfl⟩ : ∃ f', f = f' + 1 := ⟨f - 1, by simp [fuelV] at hf; omega⟩
      by_cases hnil : s = .fNil
      · subst hnil
        simp only [printV, List.cons_append, List.nil_append, parseF]
        rw [skipWs_cons_not _ (by decide)]
        simp only [reduceIte]
        rw [skipWs_cons_not _ (by decide)]
        simp
      · cases s with
        | fCons k2 v2 t2 =>
          obtain ⟨hl2, hph⟩ := fspine_head k2 v2 t2 (d + 1)
          simp only [printV, List.cons_append, parseF]
          rw [show (printV (.fCons k2 v2 t2) (d + 1) ++ '\n' :: (indentC d ++ ['}'])) ++ rest
              = printV (.fCons k2 v2 t2) (d + 1) ++ '\n' :: (indentC d ++ '}' :: rest) by simp]
          rw [skipWs_cons_not _ (by decide)]
          have hskcons :
              skipWs ('\n' :: (printV (.fCons k2 v2 t2) (d + 1) ++ '\n' :: (indentC d ++ '}' :: rest)))
              = '"' :: (hl2 ++ '\n' :: (indentC d ++ '}' :: rest)) := by
            rw [skipWs_cons_ws _ (by decide), hph, List.append_assoc, List.cons_append,
              skipWs_ws_pre (indentC_ws (d + 1)), skipWs_cons_not _ (by decide)]
          have hfields :
              parseF f' .fields ('\n' :: (printV (.fCons k2 v2 t2) (d + 1) ++ '\n' :: (indentC d ++ '}' :: rest)))
              = some (.fCons k2 v2 t2, rest) := by
            have hstep := parse_fields_ws ['\n'] (by decide) f'
              (printV (.fCons k2 v2 t2) (d + 1) ++ '\n' :: (indentC d ++ '}' :: rest))
            rw [List.singleton_append] at hstep
            rw [hstep]
            exact ((ihs f' d rest).2.2) hparts.2 hparts.1 (by simp)
              (by simp only [fuelV] at hf ⊢; omega)
          simp [hskcons, if_neg (show ¬('"' : Char) = '}' by decide), hfields]
        | fNil => exact absurd rfl hnil
        | null => simp [isFieldSpine] at hparts
        | boolV b => simp [isFieldSpine] at hparts
        | num l2 => simp [isFieldSpine] at hparts
        | str s2 => simp [isFieldSpine] at hparts
        | arr s2 => simp [isFieldSpine] at hparts
        | obj s2 => simp [isFieldSpine] at hparts
        | sNil => simp [isFieldSpine] at hparts
        | sCons h2 t2 => simp [isFieldSpine] at hparts
    · intro _ hsp _ _; simp [isArrSpine] at hsp
    · intro _ hsp _ _; simp [isFieldSpine] at hsp
  | sCons h t ihh iht =>
    intro f d rest
    refine ⟨?_, ?_, ?_⟩
    · intro _ hv _ _; simp [isVal] at hv
    · intro hwf hsp _ hf
      obtain ⟨⟨hvh, hwh⟩, hwt⟩ : (isVal h = true ∧ wf h = true) ∧ wf t = true := by
        simpa [wf] using hwf
      have hspt : isArrSpine t = true := by simpa [isArrSpine] using hsp
      obtain ⟨f', rfl⟩ : ∃ f', f = f' + 1 := ⟨f - 1, by simp [fuelV] at hf; omega⟩
      simp only [parseF]
      cases t with
      | sNil =>
        simp only [printV, List.append_assoc]
        have hval : parseF f' .value
            (indentC (d + 1) ++ (printV h (d + 1) ++ '\n' :: (indentC d ++ ']' :: rest)))
            = some (h, '\n' :: (indentC d ++ ']' :: rest)) := by
          rw [parse_value_ws _ (indentC_ws (d + 1))]
          exact ((ihh f' (d + 1) ('\n' :: (indentC d ++ ']' :: rest))).1) hwh hvh
            (by simp only [fuelV] at hf ⊢; omega) rfl
        rw [hval]
        have hsk : skipWs ('\n' :: (indentC d ++ ']' :: rest)) = ']' :: rest := by
          rw [skipWs_cons_ws _ (by decide), skipWs_ws_pre (indentC_ws d),
            skipWs_cons_not _ (by decide)]
        simp [hsk]
      | sCons h3 t3 =>
        simp only [printV, List.append_assoc, List.cons_append]
        have hval : parseF f' .value
            (indentC (d + 1) ++ (printV h (d + 1) ++ ',' :: '\n' :: (printV (.sCons h3 t3) (d + 1) ++ '\n' :: (indentC d ++ ']' :: rest))))
            = some (h, ',' :: '\n' :: (printV (.sCons h3 t3) (d + 1) ++ '\n' :: (indentC d ++ ']' :: rest))) := by
          rw [parse_value_ws _ (indentC_ws (d + 1))]
          exact ((ihh f' (d + 1) (',' :: '\n' :: (printV (.sCons h3 t3) (d + 1) ++ '\n' :: (indentC d ++ ']' :: rest)))).1) hwh hvh
            (by simp only [fuelV] at hf ⊢; omega) rfl
        have hskc : skipWs (',' :: '\n' :: (printV (.sCons h3 t3) (d + 1) ++ '\n' :: (indentC d ++ ']' :: rest)))
            = ',' :: '\n' :: (printV (.sCons h3 t3) (d + 1) ++ '\n' :: (indentC d ++ ']' :: rest)) :=
          skipWs_cons_not _ (by decide)
        have hrec : parseF f' .elems
            ('\n' :: (printV (.sCons h3 t3) (d + 1) ++ '\n' :: (indentC d ++ ']' :: rest)))
            = some (.sCons h3 t3, rest) := by
          have hstep := parse_elems_ws ['\n'] (by decide) f'
            (printV (.sCons h3 t3) (d + 1) ++ '\n' :: (indentC d ++ ']' :: rest))
          rw [List.singleton_append] at hstep
          rw [hstep]
          exact ((iht f' d rest).2.1) hwt hspt (by simp) (by simp only [fuelV] at hf ⊢; omega)
        simp [hval, hskc, hrec]
      | null => simp [isArrSpine] at hspt
      | boolV b => simp [isArrSpine] at hspt
      | num l2 => simp [isArrSpine] at hspt
      | str s2 => simp [isArrSpine] at hspt
      | arr s2 => simp [isArrSpine] at hspt
      | obj s2 => simp [isArrSpine] at hspt
      | fNil => simp [isArrSpine] at hspt
      | fCons k2 v2 t2 => simp [isArrSpine] at hspt
    · intro _ hsp _ _; simp [isFieldSpine] at hsp
  | fCons k v t ihv iht =>
    intro f d rest
    refine ⟨?_, ?_, ?_⟩
    · intro _ hv _ _; simp [isVal] at hv
    · intro _ hsp _ _; simp [isArrSpine] at hsp
    · intro hwf hsp _ hf
      obtain ⟨⟨hvv, hwv⟩, hwt⟩ :
          (isVal v = true ∧ wf v = true) ∧ wf t = true := by
        simpa [wf] using hwf
      have hspt : isFieldSpine t = true := by simpa [isFieldSpine] using hsp
      obtain ⟨f', rfl⟩ : ∃ f', f = f' + 1 := ⟨f - 1, by simp [fuelV] at hf; omega⟩
      simp only [parseF]
      cases t with
      | fNil =>
        simp only [printV, List.append_assoc, List.cons_append]
        have hsk0 : skipWs (indentC (d + 1) ++
            '"' :: (escStr k ++ '"' :: ':' :: ' ' :: (printV v (d + 1) ++ '\n' :: (indentC d ++ '}' :: rest))))
            = '"' :: (escStr k ++ '"' :: ':' :: ' ' :: (printV v (d + 1) ++ '\n' :: (indentC d ++ '}' :: rest))) := by
          rw [skipWs_ws_pre (indentC_ws (d + 1)), skipWs_cons_not _ (by decide)]
        have hpk := parseStrBody_escStr k
          (':' :: ' ' :: (printV v (d + 1) ++ '\n' :: (indentC d ++ '}' :: rest)))
        have hsk1 : skipWs (':' :: ' ' :: (printV v (d + 1) ++ '\n' :: (indentC d ++ '}' :: rest)))
            = ':' :: ' ' :: (printV v (d + 1) ++ '\n' :: (indentC d ++ '}' :: rest)) :=
          skipWs_cons_not _ (by decide)
        have hv1 : parseF f' .value (' ' :: (printV v (d + 1) ++ '\n' :: (indentC d ++ '}' :: rest)))
            = some (v, '\n' :: (indentC d ++ '}' :: rest)) := by
          have hstep := parse_value_ws [' '] (by decide) f'
            (printV v (d + 1) ++ '\n' :: (indentC d ++ '}' :: rest))
          rw [List.singleton_append] at hstep
          rw [hstep]
          exact ((ihv f' (d + 1) ('\n' :: (indentC d ++ '}' :: rest))).1) hwv hvv
            (by simp only [fuelV] at hf ⊢; omega) rfl
        have hsk2 : skipWs ('\n' :: (indentC d ++ '}' :: rest)) = '}' :: rest := by
          rw [skipWs_cons_ws _ (by decide), skipWs_ws_pre (indentC_ws d),
            skipWs_cons_not _ (by decide)]
        simp [hsk0, hpk, hsk1, hv1, hsk2]
      | fCons k3 v3 t3 =>
        simp only [printV, List.append_assoc, List.cons_append]
        have hsk0 : skipWs (indentC (d + 1) ++
            '"' :: (escStr k ++ '"' :: ':' :: ' ' :: (printV v (d + 1) ++
              ',' :: '\n' :: (printV (.fCons k3 v3 t3) (d + 1) ++ '\n' :: (indentC d ++ '}' :: rest)))))
            = '"' :: (escStr k ++ '"' :: ':' :: ' ' :: (printV v (d + 1) ++
              ',' :: '\n' :: (printV (.fCons k3 v3 t3) (d + 1) ++ '\n' :: (indentC d ++ '}' :: rest)))) := by
          rw [skipWs_ws_pre (indentC_ws (d + 1)), skipWs_cons_not _ (by decide)]
        have hpk := parseStrBody_escStr k
          (':' :: ' ' :: (printV v (d + 1) ++
            ',' :: '\n' :: (printV (.fCons k3 v3 t3) (d + 1) ++ '\n' :: (indentC d ++ '}' :: rest))))
        have hsk1 : skipWs (':' :: ' ' :: (printV v (d + 1) ++
            ',' :: '\n' :: (printV (.fCons k3 v3 t3) (d + 1) ++ '\n' :: (indentC d ++ '}' :: rest))))
            = ':' :: ' ' :: (printV v (d + 1) ++
            ',' :: '\n' :: (printV (.fCons k3 v3 t3) (d + 1) ++ '\n' :: (indentC d ++ '}' :: rest))) :=
          skipWs_cons_not _ (by decide)
        have hv1 : parseF f' .value (' ' :: (printV v (d + 1) ++
            ',' :: '\n' :: (printV (.fCons k3 v3 t3) (d + 1) ++ '\n' :: (indentC d ++ '}' :: rest))))
            = some (v, ',' :: '\n' :: (printV (.fCons k3 v3 t3) (d + 1) ++ '\n' :: (indentC d ++ '}' :: rest))) := by
          have hstep := parse_value_ws [' '] (by decide) f'
            (printV v (d + 1) ++
              ',' :: '\n' :: (printV (.fCons k3 v3 t3) (d + 1) ++ '\n' :: (indentC d ++ '}' :: rest)))
          rw [List.singleton_append] at hstep
          rw [hstep]
          exact ((ihv f' (d + 1) (',' :: '\n' :: (printV (.fCons k3 v3 t3) (d + 1) ++
            '\n' :: (indentC d ++ '}' :: rest)))).1) hwv hvv
            (by simp only [fuelV] at hf ⊢; omega) rfl
        have hsk2 : skipWs (',' :: '\n' :: (printV (.fCons k3 v3 t3) (d + 1) ++
            '\n' :: (indentC d ++ '}' :: rest)))
            = ',' :: '\n' :: (printV (.fCons k3 v3 t3) (d + 1) ++ '\n' :: (indentC d ++ '}' :: rest)) :=
          skipWs_cons_not _ (by decide)
        have hrec : parseF f' .fields
            ('\n' :: (printV (.fCons k3 v3 t3) (d + 1) ++ '\n' :: (indentC d ++ '}' :: rest)))
            = some (.fCons k3 v3 t3, rest) := by
          have hstep := parse_fields_ws ['\n'] (by decide) f'
            (printV (.fCons k3 v3 t3) (d + 1) ++ '\n' :: (indentC d ++ '}' :: rest))
          rw [List.singleton_append] at hstep
          rw [hstep]
          exact ((iht f' d rest).2.2) hwt hspt (by simp) (by simp only [fuelV] at hf ⊢; omega)
        simp [hsk0, hpk, hsk1, hv1, hsk2, hrec]
      | null => simp [isFieldSpine] at hspt
      | boolV b => simp [isFieldSpine] at hspt
      | num l2 => simp [isFieldSpine] at hspt
      | str s2 => simp [isFieldSpine] at hspt
      | arr s2 => simp [isFieldSpine] at hspt
      | obj s2 => simp [isFieldSpine] at hspt
      | sNil => simp [isFieldSpine] at hspt
      | sCons h2 t2 => simp [isFieldSpine] at hspt

/-- A rendered value is at least as long as the fuel its parse needs; rendered
spines may fall short by at most the two structural units their brackets add. -/
theorem fuelV_le_len (v : JValue) : ∀ d : Nat,
    (isVal v = true → wf v = true → fuelV v ≤ (printV v d).length)
    ∧ ((isArrSpine v = true ∨ isFieldSpine v = true) → wf v = true →
      fuelV v ≤ (printV v d).length + 2) := by
  induction v with
  | null => intro d; exact ⟨fun _ _ => by simp [fuelV, printV], fun hsp _ => by
      rcases hsp with h | h <;> simp [isArrSpine, isFieldSpine] at h⟩
  | boolV b =>
    intro d
    refine ⟨fun _ _ => ?_, fun hsp _ => ?_⟩
    · cases b <;> simp [fuelV, printV]
    · rcases hsp with h | h <;> simp [isArrSpine, isFieldSpine] at h
  | num lit =>
    intro d
    refine ⟨fun _ hwf => ?_, fun hsp _ => by
      rcases hsp with h | h <;> simp [isArrSpine, isFieldSpine] at h⟩
    have hval : validNumLit lit = true := by simpa [wf] using hwf
    obtain ⟨_, c0, t0, hl, _⟩ := validNum_facts hval
    subst hl
    simp [fuelV, printV]
  | str s => intro d; exact ⟨fun _ _ => by simp [fuelV, printV], fun hsp _ => by
      rcases hsp with h | h <;> simp [isArrSpine, isFieldSpine] at h⟩
  | sNil => intro d; exact ⟨fun hv _ => by simp [isVal] at hv, fun _ _ => by
      simp [fuelV, printV]⟩
  | fNil => intro d; exact ⟨fun hv _ => by simp [isVal] at hv, fun _ _ => by
      simp [fuelV, printV]⟩
  | arr s ihs =>
    intro d
    refine ⟨fun _ hwf => ?_, fun hsp _ => by
      rcases hsp with h | h <;> simp [isArrSpine, isFieldSpine] at h⟩
    have hparts : isArrSpine s = true ∧ wf s = true := by simpa [wf] using hwf
    cases s with
    | sNil => simp [fuelV, printV]
    | sCons h2 t2 =>
      have := ((ihs (d + 1)).2) (Or.inl hparts.1) hparts.2
      simp only [fuelV, printV, List.length_cons, List.length_append, List.cons_append] at this ⊢
      simp [indentC]
      omega
    | null => simp [isArrSpine] at hparts
    | boolV b => simp [isArrSpine] at hparts
    | num l2 => simp [isArrSpine] at hparts
    | str s2 => simp [isArrSpine] at hparts
    | arr s2 => simp [isArrSpine] at hparts
    | obj s2 => simp [isArrSpine] at hparts
    | fNil => simp [isArrSpine] at hparts
    | fCons k2 v2 t2 => simp [isArrSpine] at hparts
  | obj s ihs =>
    intro d
    refine ⟨fun _ hwf => ?_, fun hsp _ => by
      rcases hsp with h | h <;> simp [isArrSpine, isFieldSpine] at h⟩
    have hparts : isFieldSpine s = true ∧ wf s = true := by simpa [wf] using hwf
    cases s with
    | fNil => simp [fuelV, printV]
    | fCons k2 v2 t2 =>
      have := ((ihs (d + 1)).2) (Or.inr hparts.1) hparts.2
      simp only [fuelV, printV, List.length_cons, List.length_append, List.cons_append] at this ⊢
      simp [indentC]
      omega
    | null => simp [isFieldSpine] at hparts
    | boolV b => simp [isFieldSpine] at hparts
    | num l2 => simp [isFieldSpine] at hparts
    | str s2 => simp [isFieldSpine] at hparts
    | arr s2 => simp [isFieldSpine] at hparts
    | obj s2 => simp [isFieldSpine] at hparts
    | sNil => simp [isFieldSpine] at hparts
    | sCons h2 t2 => simp [isFieldSpine] at hparts
  | sCons h t ihh iht =>
    intro d
    refine ⟨fun hv _ => by simp [isVal] at hv, fun hsp hwf => ?_⟩
    have hspt : isArrSpine t = true := by
      rcases hsp with h' | h'
      · simpa [isArrSpine] using h'
      · simp [isFieldSpine] at h'
    obtain ⟨⟨hvh, hwh⟩, hwt⟩ : (isVal h = true ∧ wf h = true) ∧ wf t = true := by
      simpa [wf] using hwf
    have hh := ((ihh d).1) hvh hwh
    cases t with
    | sNil =>
      simp only [fuelV, printV, List.length_append] at hh ⊢
      omega
    | sCons h3 t3 =>
      have ht := ((iht d).2) (Or.inl hspt) hwt
      simp only [fuelV, printV, List.length_append, List.length_cons] at hh ht ⊢
      omega
    | null => simp [isArrSpine] at hspt
    | boolV b => simp [isArrSpine] at hspt
    | num l2 => simp [isArrSpine] at hspt
    | str s2 => simp [isArrSpine] at hspt
    | arr s2 => simp [isArrSpine] at hspt
    | obj s2 => simp [isArrSpine] at hspt
    | fNil => simp [isArrSpine] at hspt
    | fCons k2 v2 t2 => simp [isArrSpine] at hspt
  | fCons k v t ihv iht =>
    intro d
    refine ⟨fun hv _ => by simp [isVal] at hv, fun hsp hwf => ?_⟩
    have hspt : isFieldSpine t = true := by
      rcases hsp with h' | h'
      · simp [isArrSpine] at h'
      · simpa [isFieldSpine] using h'
    obtain ⟨⟨hvv, hwv⟩, hwt⟩ :
        (isVal v = true ∧ wf v = true) ∧ wf t = true := by
      simpa [wf] using hwf
    have hh := ((ihv d).1) hvv hwv
    cases t with
    | fNil =>
      simp only [fuelV, printV, List.length_append, List.length_cons] at hh ⊢
      omega
    | fCons k3 v3 t3 =>
      have ht := ((iht d).2) (Or.inr hspt) hwt
      simp only [fuelV, printV, List.length_append, List.length_cons] at hh ht ⊢
      omega
    | null => simp [isFieldSpine] at hspt
    | boolV b => simp [isFieldSpine] at hspt
    | num l2 => simp [isFieldSpine] at hspt
    | str s2 => simp [isFieldSpine] at hspt
    | arr s2 => simp [isFieldSpine] at hspt
    | obj s2 => simp [isFieldSpine] at hspt
    | sNil => simp [isFieldSpine] at hspt
    | sCons h2 t2 => simp [isFieldSpine] at hspt

/-- `json.Unmarshal` decodes what `json.MarshalIndent` wrote. -/
theorem unmarshal_print {v : JValue} (hwf : wf v = true) (hv : isVal v = true) :
    unmarshal (printV v 0 ++ ['\n']) = some v := by
  have hfuel : fuelV v ≤ (printV v 0 ++ ['\n']).length := by
    have := ((fuelV_le_len v 0).1) hv hwf
    simp only [List.length_append, List.length_cons, List.length_nil]
    omega
  have hparse := ((parse_printV v ((printV v 0 ++ ['\n']).length + 1) 0 ['\n']).1) hwf hv
    (by omega) (by decide)
  simp only [unmarshal, hparse]
  rfl
/-! ### Filesystem lemmas -/

theorem appendStr_concat (l : Path) (a s : String) : appendStr (l ++ [a]) s = l ++ [a ++ s] := by
  induction l with
  | nil => rfl
  | cons x xs ih =>
    cases xs with
    | nil => rfl
    | cons y ys =>
      simp only [List.cons_append] at ih ⊢
      simp [appendStr, ih]

theorem find?_filter_none_of (l : List (Path × List Char)) (keep sel : Path × List Char → Bool)
    (h : ∀ e, sel e = true → keep e = false) :
    (l.filter keep).find? sel = none := by
  induction l with
  | nil => rfl
  | cons e l ih =>
    by_cases hk : keep e = true
    · rw [List.filter_cons_of_pos hk]
      have hs : sel e = false := by
        cases hse : sel e
        · rfl
        · have := h e hse
          rw [hk] at this
          exact Bool.noConfusion this
      rw [List.find?_cons_of_neg _ (by simp [hs]), ih]
    · rw [List.filter_cons_of_neg (by simpa using hk), ih]

theorem find?_filter_eq_of (l : List (Path × List Char)) (keep sel : Path × List Char → Bool)
    (h : ∀ e, sel e = true → keep e = true) :
    (l.filter keep).find? sel = l.find? sel := by
  induction l with
  | nil => rfl
  | cons e l ih =>
    by_cases hse : sel e = true
    · rw [List.filter_cons_of_pos (h e hse), List.find?_cons_of_pos _ hse,
        List.find?_cons_of_pos _ hse]
    · have hse' : sel e = false := by simpa using hse
      by_cases hk : keep e = true
      · rw [List.filter_cons_of_pos hk, List.find?_cons_of_neg _ (by simp [hse']), ih,
          List.find?_cons_of_neg _ (by simp [hse'])]
      · rw [List.filter_cons_of_neg (by simpa using hk), ih,
          List.find?_cons_of_neg _ (by simp [hse'])]

theorem contains_filter_none {l : List Path} {keep : Path → Bool} {q : Path}
    (h : keep q = false) : (l.filter keep).contains q = false := by
  induction l with
  | nil => rfl
  | cons x l ih =>
    by_cases hx : keep x = true
    · rw [List.filter_cons_of_pos hx]
      have hxq : (q == x) = false := by
        cases hq : q == x
        · rfl
        · have : q = x := by simpa using hq
          subst this
          rw [hx] at h
          exact Bool.noConfusion h
      rw [List.contains_cons, hxq, Bool.false_or]
      exact ih
    · rw [List.filter_cons_of_neg (by simpa using hx)]
      exact ih

theorem contains_filter_eq {l : List Path} {keep : Path → Bool} {q : Path}
    (h : keep q = true) : (l.filter keep).contains q = l.contains q := by
  induction l with
  | nil => rfl
  | cons x l ih =>
    by_cases hxq : (q == x) = true
    · have : q = x := by simpa using hxq
      subst this
      rw [List.filter_cons_of_pos h]
      simp [List.contains_cons]
    · have hxq' : (q == x) = false := by simpa using hxq
      by_cases hx : keep x = true
      · rw [List.filter_cons_of_pos hx]
        rw [List.contains_cons, List.contains_cons, hxq', Bool.false_or, Bool.false_or]
        exact ih
      · rw [List.filter_cons_of_neg (by simpa using hx)]
        rw [List.contains_cons, hxq', Bool.false_or]
        exact ih

theorem lookupFile_setFile_self (fs : FS) (p : Path) (b : List Char) :
    (fs.setFile p b).lookupFile p = some b := by
  simp [FS.setFile, FS.lookupFile]

theorem lookupFile_setFile_ne (fs : FS) {p q : Path} (b : List Char) (h : ¬q = p) :
    (fs.setFile p b).lookupFile q = fs.lookupFile q := by
  have hne : (((p, b) : Path × List Char).1 == q) = false := by
    simpa using fun e => h e.symm
  simp only [FS.setFile, FS.lookupFile]
  rw [List.find?_cons_of_neg _ (by simp [hne])]

theorem isDir_setFile (fs : FS) (p q : Path) (b : List Char) :
    (fs.setFile p b).isDir q = fs.isDir q := rfl

theorem isDir_eraseFile (fs : FS) (p q : Path) : (fs.eraseFile p).isDir q = fs.isDir q := rfl

theorem lookupFile_eraseFile_ne (fs : FS) {p q : Path} (h : ¬q = p) :
    (fs.eraseFile p).lookupFile q = fs.lookupFile q := by
  simp only [FS.eraseFile, FS.lookupFile]
  rw [find?_filter_eq_of]
  intro e he
  have he' : e.1 = q := by simpa using he
  simp only [he']
  simpa using h

theorem mkdirAll_parts {fs fs1 : FS} {p : Path} (h : fs.mkdirAll p = some fs1) :
    fs1.dirs = pathInits p ++ fs.dirs ∧ fs1.files = fs.files := by
  simp only [FS.mkdirAll] at h
  split at h
  · exact Option.noConfusion h
  · injection h with h
    subst h
    exact ⟨rfl, rfl⟩

theorem pathInits_mem_len {p q : Path} (h : q ∈ pathInits p) : q.length ≤ p.length := by
  induction p generalizing q with
  | nil =>
    simp only [pathInits, List.mem_singleton] at h
    subst h
    exact Nat.le_refl 0
  | cons x xs ih =>
    simp only [pathInits, List.mem_cons, List.mem_map] at h
    rcases h with h | ⟨q', hq', rfl⟩
    · subst h; simp
    · simpa using ih hq'

theorem self_mem_pathInits (p : Path) : p ∈ pathInits p := by
  induction p with
  | nil => simp [pathInits]
  | cons x xs ih => simp [pathInits, ih]

theorem writeFile_parts {fs fs2 : FS} {p : Path} {b : List Char}
    (h : fs.writeFile p b = some fs2) : fs2 = fs.setFile p b := by
  simp only [FS.writeFile] at h
  split at h
  · exact Option.noConfusion h
  · split at h
    · injection h with h
      exact h.symm
    · exact Option.noConfusion h

theorem rename_parts {fs fs3 : FS} {src dst : Path} (h : fs.rename src dst = some fs3) :
    ∃ bb, fs.lookupFile src = some bb ∧ fs3 = (fs.eraseFile src).setFile dst bb := by
  simp only [FS.rename] at h
  split at h
  · exact Option.noConfusion h
  next bb hbb =>
    split at h
    · exact Option.noConfusion h
    · injection h with h
      exact ⟨bb, hbb, h.symm⟩

theorem fnl_ne_tmp (root : Path) (c r : String) :
    ¬(root ++ [c]) ++ [r ++ ".json"] = (root ++ [c]) ++ [r ++ ".json" ++ ".tmp"] := by
  intro h
  have hlast := congrArg List.getLast? h
  rw [List.getLast?_concat, List.getLast?_concat] at hlast
  injection hlast with hstr
  have hlen := congrArg String.length hstr
  rw [String.length_append, String.length_append, String.length_append] at hlen
  have h5 : (".json" : String).length = 5 := rfl
  have h4 : (".tmp" : String).length = 4 := rfl
  rw [h5, h4] at hlen
  omega

/-- What `Write` does to the final file `<root>/<collection>/<resource>.json`:
on any error the prior entry is untouched; on success it holds exactly the
marshalled bytes plus the trailing newline. -/
theorem Write_final_file (root : Path) (fs : FS) (fl : Faults) (c r : String) (v : GoValue) :
    ((Write root fs fl c r v).1 = .ok () ∧
      ∃ b, marshalIndent v = some b ∧
        (Write root fs fl c r v).2.lookupFile ((root ++ [c]) ++ [r ++ ".json"])
          = some (b ++ ['\n']))
    ∨ ((∃ e, (Write root fs fl c r v).1 = .error e) ∧
      (Write root fs fl c r v).2.lookupFile ((root ++ [c]) ++ [r ++ ".json"])
        = fs.lookupFile ((root ++ [c]) ++ [r ++ ".json"])) := by
  have hne : ¬(root ++ [c]) ++ [r ++ ".json"] = appendStr ((root ++ [c]) ++ [r ++ ".json"]) ".tmp" := by
    rw [appendStr_concat]
    exact fnl_ne_tmp root c r
  simp only [Write]
  split
  · exact Or.inr ⟨⟨_, rfl⟩, rfl⟩
  split
  · exact Or.inr ⟨⟨_, rfl⟩, rfl⟩
  split
  · exact Or.inr ⟨⟨_, rfl⟩, rfl⟩
  next b hm =>
    split
    · exact Or.inr ⟨⟨_, rfl⟩, rfl⟩
    split
    · exact Or.inr ⟨⟨_, rfl⟩, rfl⟩
    next fs1 hmk =>
      have hfiles : fs1.files = fs.files := (mkdirAll_parts hmk).2
      have hlk1 : ∀ q, fs1.lookupFile q = fs.lookupFile q := by
        intro q
        simp [FS.lookupFile, hfiles]
      split
      · refine Or.inr ⟨⟨_, rfl⟩, ?_⟩
        rw [lookupFile_setFile_ne _ _ hne, hlk1]
      · split
        · exact Or.inr ⟨⟨_, rfl⟩, hlk1 _⟩
        next fs2 hw2 =>
          have hfs2 : fs2 = fs1.setFile (appendStr ((root ++ [c]) ++ [r ++ ".json"]) ".tmp")
              (b ++ ['\n']) := writeFile_parts hw2
          have hlk2 : fs2.lookupFile ((root ++ [c]) ++ [r ++ ".json"])
              = fs.lookupFile ((root ++ [c]) ++ [r ++ ".json"]) := by
            rw [hfs2, lookupFile_setFile_ne _ _ hne, hlk1]
          split
          · exact Or.inr ⟨⟨_, rfl⟩, hlk2⟩
          · split
            · exact Or.inr ⟨⟨_, rfl⟩, hlk2⟩
            next fs3 hr3 =>
              obtain ⟨bb, hbb, hfs3⟩ := rename_parts hr3
              have hbbval : bb = b ++ ['\n'] := by
                rw [hfs2, lookupFile_setFile_self] at hbb
                injection hbb with hbb
                exact hbb.symm
              refine Or.inl ⟨rfl, b, hm, ?_⟩
              rw [hfs3, lookupFile_setFile_self, hbbval]

theorem removeAll_isDir_under {fs : FS} {p q : Path} (h : p.isPrefixOf q = true) :
    (fs.removeAll p).isDir q = false :=
  contains_filter_none (by simp [h])

theorem removeAll_lookup_under {fs : FS} {p q : Path} (h : p.isPrefixOf q = true) :
    (fs.removeAll p).lookupFile q = none := by
  simp only [FS.removeAll, FS.lookupFile]
  rw [find?_filter_none_of]
  · rfl
  · intro e he
    have he' : e.1 = q := by simpa using he
    simp [he', h]

theorem removeAll_lookup_eq {fs : FS} {p q : Path} (h : p.isPrefixOf q = false) :
    (fs.removeAll p).lookupFile q = fs.lookupFile q := by
  simp only [FS.removeAll, FS.lookupFile]
  rw [find?_filter_eq_of]
  intro e he
  have he' : e.1 = q := by simpa using he
  simp [he', h]

theorem removeAll_isDir_eq {fs : FS} {p q : Path} (h : p.isPrefixOf q = false) :
    (fs.removeAll p).isDir q = fs.isDir q :=
  contains_filter_eq (by simp [h])

theorem appendStr_concat2 (root : Path) (c r s : String) :
    appendStr (root ++ [c, r]) s = root ++ [c, r ++ s] := by
  have h := appendStr_concat (root ++ [c]) r s
  simpa [List.append_assoc] using h

/-! ### The claims -/

/-- C2: `Write` is atomic with respect to the final file: whenever it returns
an error (validation, serialization, directory creation, temp write, or even
rename), the bytes of `<collection>/<resource>.json` are exactly what they
were before the call; and whenever it succeeds the file holds exactly the
complete new encoding plus its newline.  The final file is therefore always
the complete old or the complete new content, never a mix. -/
theorem write_atomic_final_file (root : Path) (fs : FS) (fl : Faults) (c r : String)
    (v : GoValue) :
    (∀ e, (Write root fs fl c r v).1 = .error e →
      (Write root fs fl c r v).2.lookupFile ((root ++ [c]) ++ [r ++ ".json"])
        = fs.lookupFile ((root ++ [c]) ++ [r ++ ".json"]))
    ∧ ((Write root fs fl c r v).1 = .ok () →
      ∃ b, marshalIndent v = some b ∧
        (Write root fs fl c r v).2.lookupFile ((root ++ [c]) ++ [r ++ ".json"])
          = some (b ++ ['\n'])) := by
  rcases Write_final_file root fs fl c r v with ⟨hok, hb⟩ | ⟨⟨e0, he0⟩, hlk⟩
  · refine ⟨?_, fun _ => hb⟩
    intro e he
    rw [hok] at he
    exact Except.noConfusion he
  · refine ⟨fun e _ => hlk, ?_⟩
    intro hok
    rw [he0] at hok
    exact Except.noConfusion hok

/-- Witness for C2: with an unencodable value the write fails and the old
bytes survive; with an encodable one it succeeds and the file holds the new
encoding plus newline. -/
theorem write_atomic_final_file_witness :
    ((Write root0 fsUsers noFaults "users" "Ashlie" GoValue.unenc).2.lookupFile
        ((root0 ++ ["users"]) ++ ["Ashlie" ++ ".json"])
      = fsUsers.lookupFile ((root0 ++ ["users"]) ++ ["Ashlie" ++ ".json"]))
    ∧ (∃ b, marshalIndent (.enc .null) = some b ∧
        (Write root0 fsUsers noFaults "users" "Ashlie" (.enc .null)).2.lookupFile
          ((root0 ++ ["users"]) ++ ["Ashlie" ++ ".json"]) = some (b ++ ['\n'])) :=
  ⟨(write_atomic_final_file root0 fsUsers noFaults "users" "Ashlie" GoValue.unenc).1
      .marshalErr rfl,
    (write_atomic_final_file root0 fsUsers noFaults "users" "Ashlie" (.enc .null)).2 rfl⟩

/-- C6: `Write("", x, v)` and `Write(x, "", v)` fail with the respective
validation errors and return the filesystem exactly as it was: no directory
is created and no file is written. -/
theorem write_validation_no_mutation (root : Path) (fs : FS) (fl : Faults)
    (r c2 : String) (v : GoValue) (hc2 : ¬c2 = "") :
    Write root fs fl "" r v = (.error .missingCollection, fs)
    ∧ Write root fs fl c2 "" v = (.error .missingResource, fs) := by
  constructor
  · simp [Write]
  · simp [Write, hc2]

/-- Witness for C6 at the spec's concrete inputs. -/
theorem write_validation_no_mutation_witness :
    Write root0 fsEmpty noFaults "" "x" GoValue.unenc = (.error .missingCollection, fsEmpty)
    ∧ Write root0 fsEmpty noFaults "x" "" GoValue.unenc = (.error .missingResource, fsEmpty) :=
  write_validation_no_mutation root0 fsEmpty noFaults "x" "x" GoValue.unenc (by decide)

theorem getLast?_mem_chars {l : List Char} {c : Char} (h : l.getLast? = some c) : c ∈ l := by
  induction l with
  | nil => exact Option.noConfusion h
  | cons x xs ih =>
    cases xs with
    | nil =>
      simp only [List.getLast?_singleton, Option.some.injEq] at h
      simp [h]
    | cons y ys =>
      rw [List.getLast?_cons_cons] at h
      exact List.mem_cons_of_mem _ (ih h)

/-- The rendered bytes of a value never end in a newline: the single newline
`Write` appends is the file's one and only trailing newline. -/
theorem printV_last_ne_newline {v : JValue} (d : Nat) (hwf : wf v = true)
    (hv : isVal v = true) : ∀ c, (printV v d).getLast? = some c → ¬c = '\n' := by
  intro c hc
  cases v with
  | null =>
    simp only [printV] at hc
    intro he
    subst he
    exact absurd hc (by decide)
  | boolV b =>
    cases b <;>
      (simp only [printV] at hc; intro he; subst he; exact absurd hc (by decide))
  | num lit =>
    have hval : validNumLit lit = true := by simpa [wf] using hwf
    obtain ⟨hall, _⟩ := validNum_facts hval
    simp only [printV] at hc
    have := hall c (getLast?_mem_chars hc)
    intro he
    subst he
    exact absurd this (by decide)
  | str s =>
    simp only [printV] at hc
    rw [show ('"' :: (escStr s ++ ['"'])) = ('"' :: escStr s) ++ ['"'] by simp,
      List.getLast?_concat] at hc
    injection hc with hc
    subst hc
    decide
  | arr s =>
    cases s <;>
      (simp only [printV] at hc
       first
       | (rw [show (['[', ']'] : List Char) = ['['] ++ [']'] by rfl,
            List.getLast?_concat] at hc
          injection hc with hc; subst hc; decide)
       | (rw [show ∀ X : List Char, '[' :: '\n' :: (X ++ '\n' :: (indentC d ++ [']']))
              = ('[' :: '\n' :: (X ++ '\n' :: indentC d)) ++ [']'] by intro X; simp,
            List.getLast?_concat] at hc
          injection hc with hc; subst hc; decide))
  | obj s =>
    cases s <;>
      (simp only [printV] at hc
       first
       | (rw [show (['{', '}'] : List Char) = ['{'] ++ ['}'] by rfl,
            List.getLast?_concat] at hc
          injection hc with hc; subst hc; decide)
       | (rw [show ∀ X : List Char, '{' :: '\n' :: (X ++ '\n' :: (indentC d ++ ['}']))
              = ('{' :: '\n' :: (X ++ '\n' :: indentC d)) ++ ['}'] by intro X; simp,
            List.getLast?_concat] at hc
          injection hc with hc; subst hc; decide))
  | sNil => simp [isVal] at hv
  | sCons h t => simp [isVal] at hv
  | fNil => simp [isVal] at hv
  | fCons k v2 t => simp [isVal] at hv

/-- C9: a successful `Write` of an encodable value persists exactly the
`json.MarshalIndent(v, "", "\t")` encoding - the tab-per-level pretty
rendering `printV` - followed by a single `\n`: the file ends in a newline,
and the encoding itself never contributes a second one. -/
theorem write_persists_indented_json (root : Path) (fs : FS) (fl : Faults) (c r : String)
    (j : JValue) (hwf : wf j = true) (hv : isVal j = true)
    (hok : (Write root fs fl c r (.enc j)).1 = .ok ()) :
    (Write root fs fl c r (.enc j)).2.lookupFile ((root ++ [c]) ++ [r ++ ".json"])
      = some (printV j 0 ++ ['\n'])
    ∧ (printV j 0 ++ ['\n']).getLast? = some '\n'
    ∧ ∀ c2, (printV j 0).getLast? = some c2 → ¬c2 = '\n' := by
  rcases Write_final_file root fs fl c r (.enc j) with ⟨_, b, hb, hlk⟩ | ⟨⟨e, he⟩, _⟩
  · have hbp : b = printV j 0 := by
      simp only [marshalIndent, Option.some.injEq] at hb
      exact hb.symm
    subst hbp
    exact ⟨hlk, List.getLast?_concat _, printV_last_ne_newline 0 hwf hv⟩
  · rw [he] at hok
    exact Except.noConfusion hok

/-- Witness for C9: writing the sample record into an empty store persists
its tab-indented rendering with one trailing newline. -/
theorem write_persists_indented_json_witness :
    (Write root0 fsEmpty noFaults "users" "John" (.enc jSample)).2.lookupFile
        ((root0 ++ ["users"]) ++ ["John" ++ ".json"]) = some (printV jSample 0 ++ ['\n'])
    ∧ (printV jSample 0 ++ ['\n']).getLast? = some '\n'
    ∧ ∀ c2, (printV jSample 0).getLast? = some c2 → ¬c2 = '\n' :=
  write_persists_indented_json root0 fsEmpty noFaults "users" "John" jSample
    (by decide) (by decide) rfl

/-- C5: `Delete(c, "")` joins to just the collection path, finds a directory,
and removes the whole collection tree - every directory and file at or below
`<root>/<c>` is gone - returning no error. -/
theorem delete_empty_resource_removes_collection (root : Path) (fs : FS) (c : String)
    (hc : ¬c = "") (hdir : fs.isDir (root ++ [c]) = true) :
    Delete root fs c "" = (.ok (), fs.removeAll (root ++ [c]))
    ∧ ∀ q, (root ++ [c]).isPrefixOf q = true →
        (Delete root fs c "").2.isDir q = false
        ∧ (Delete root fs c "").2.lookupFile q = none := by
  have hstat : stat fs (root ++ [c]) = some .dir := by
    simp [stat, osStat, hdir]
  have hdel : Delete root fs c "" = (.ok (), fs.removeAll (root ++ [c])) := by
    simp only [Delete, hc, if_false, eq_self_iff_true, if_true, List.append_nil, hstat]
  refine ⟨hdel, fun q hq => ?_⟩
  rw [hdel]
  exact ⟨removeAll_isDir_under hq, removeAll_lookup_under hq⟩

/-- Witness for C5: deleting with an empty resource name wipes the `users`
collection, its record included. -/
theorem delete_empty_resource_removes_collection_witness :
    Delete root0 fsUsers "users" "" = (.ok (), fsUsers.removeAll (root0 ++ ["users"]))
    ∧ (Delete root0 fsUsers "users" "").2.isDir ["db", "users"] = false
    ∧ (Delete root0 fsUsers "users" "").2.lookupFile ["db", "users", "Ashlie.json"] = none := by
  have h := delete_empty_resource_removes_collection root0 fsUsers "users"
    (by decide) (by decide)
  exact ⟨h.1, (h.2 ["db", "users"] (by decide)).1,
    (h.2 ["db", "users", "Ashlie.json"] (by decide)).2⟩

/-- C10: `Delete("", "")` performs no emptiness validation; the joined path is
the store root itself, a directory, so the call recursively removes the whole
store - root directory, every collection and every record - and returns no
error. -/
theorem delete_empty_empty_removes_root (root : Path) (fs : FS)
    (hdir : fs.isDir root = true) :
    Delete root fs "" "" = (.ok (), fs.removeAll root)
    ∧ ∀ q, root.isPrefixOf q = true →
        (Delete root fs "" "").2.isDir q = false
        ∧ (Delete root fs "" "").2.lookupFile q = none := by
  have hstat : stat fs root = some .dir := by
    simp [stat, osStat, hdir]
  have hdel : Delete root fs "" "" = (.ok (), fs.removeAll root) := by
    simp only [Delete, eq_self_iff_true, if_true, List.append_nil, hstat]
  refine ⟨hdel, fun q hq => ?_⟩
  rw [hdel]
  exact ⟨removeAll_isDir_under hq, removeAll_lookup_under hq⟩

/-- Witness for C10: `Delete("", "")` empties the whole store. -/
theorem delete_empty_empty_removes_root_witness :
    Delete root0 fsUsers "" "" = (.ok (), fsUsers.removeAll root0)
    ∧ (Delete root0 fsUsers "" "").2.isDir ["db"] = false
    ∧ (Delete root0 fsUsers "" "").2.lookupFile ["db", "users", "Ashlie.json"] = none := by
  have h := delete_empty_empty_removes_root root0 fsUsers (by decide)
  exact ⟨h.1, (h.2 ["db"] (by decide)).1, (h.2 ["db", "users", "Ashlie.json"] (by decide)).2⟩

/-- C7: when neither `<c>/<r>` nor `<c>/<r>.json` exists, `Delete` fails with
the not-found error and returns the filesystem untouched, and `Read` fails
with the not-found error. -/
theorem notfound_semantics (root : Path) (fs : FS) (c r : String)
    (hc : ¬c = "") (hr : ¬r = "")
    (h1 : osStat fs (root ++ [c, r]) = none)
    (h2 : osStat fs (root ++ [c, r ++ ".json"]) = none) :
    Delete root fs c r = (.error .notFound, fs)
    ∧ Read root fs c r = .error .notFound := by
  have hstat : stat fs (root ++ [c, r]) = none := by
    simp [stat, h1, appendStr_concat2, h2]
  constructor
  · simp only [Delete, hc, hr, if_false, List.cons_append, List.nil_append]
    rw [hstat]
  · simp only [Read, hc, hr, if_false, List.append_assoc, List.cons_append, List.nil_append]
    rw [hstat]

/-- Witness for C7 at the spec's concrete not-found scenario. -/
theorem notfound_semantics_witness :
    Delete root0 fsUsers "users" "nonexistent" = (.error .notFound, fsUsers)
    ∧ Read root0 fsUsers "users" "nonexistent" = .error .notFound :=
  notfound_semantics root0 fsUsers "users" "nonexistent" (by decide) (by decide)
    (by decide) (by decide)

theorem readFilesLoop_none {fs : FS} {flt : List Path} {dir : Path} (names : List String)
    (h : ∃ n ∈ names, readFileF fs flt (dir ++ [n]) = none) :
    readFilesLoop fs flt dir names = none := by
  induction names with
  | nil => simp at h
  | cons n rest ih =>
    rcases h with ⟨m, hm, hfail⟩
    rcases List.mem_cons.mp hm with rfl | hm'
    · simp [readFilesLoop, hfail]
    · simp only [readFilesLoop]
      cases hr : readFileF fs flt (dir ++ [n])
      · rfl
      · rw [ih ⟨m, hm', hfail⟩]
        rfl

theorem readFilesLoop_some {fs : FS} {flt : List Path} {dir : Path} (names : List String)
    (l : List (List Char)) (h : readFilesLoop fs flt dir names = some l) :
    l = names.map (fun n => (readFileF fs flt (dir ++ [n])).getD [])
    ∧ ∀ n ∈ names, ¬readFileF fs flt (dir ++ [n]) = none := by
  induction names generalizing l with
  | nil =>
    simp only [readFilesLoop, Option.some.injEq] at h
    subst h
    exact ⟨rfl, by simp⟩
  | cons n rest ih =>
    simp only [readFilesLoop] at h
    cases hr : readFileF fs flt (dir ++ [n]) with
    | none =>
      rw [hr] at h
      exact Option.noConfusion h
    | some b =>
      rw [hr] at h
      cases hl : readFilesLoop fs flt dir rest with
      | none =>
        rw [hl] at h
        exact Option.noConfusion h
      | some l2 =>
        rw [hl] at h
        simp only [Option.map_some', Option.some.injEq] at h
        obtain ⟨h1, h2⟩ := ih l2 hl
        refine ⟨?_, ?_⟩
        · rw [← h, List.map_cons, ← h1, hr]
          rfl
        · intro m hm
          rcases List.mem_cons.mp hm with rfl | hm'
          · rw [hr]; exact fun e => Option.noConfusion e
          · exact h2 m hm'

/-- C8: over an existing collection directory, `ReadAll` either reads every
directory entry's full content - the result is exactly the list of all
entries' bytes - or, as soon as any single entry's read fails, aborts the
whole call with the read error and returns no list at all. -/
theorem readAll_all_or_nothing (root : Path) (fs : FS) (flt : List Path) (c : String)
    (hc : ¬c = "") (hdir : fs.isDir (root ++ [c]) = true) :
    ((∃ n ∈ fs.readDir (root ++ [c]), readFileF fs flt ((root ++ [c]) ++ [n]) = none) →
      ReadAll root fs flt c = .error .readErr)
    ∧ (∀ l, ReadAll root fs flt c = .ok l →
        l = (fs.readDir (root ++ [c])).map
          (fun n => (readFileF fs flt ((root ++ [c]) ++ [n])).getD [])
        ∧ ∀ n ∈ fs.readDir (root ++ [c]),
            ¬readFileF fs flt ((root ++ [c]) ++ [n]) = none) := by
  have hstat : stat fs (root ++ [c]) = some .dir := by
    simp [stat, osStat, hdir]
  constructor
  · intro hex
    simp only [ReadAll, hc, if_false, hstat]
    rw [readFilesLoop_none _ hex]
  · intro l hl
    simp only [ReadAll, hc, if_false, hstat] at hl
    cases hloop : readFilesLoop fs flt (root ++ [c]) (fs.readDir (root ++ [c])) with
    | none =>
      rw [hloop] at hl
      exact Except.noConfusion hl
    | some l2 =>
      rw [hloop] at hl
      injection hl with hl
      subst hl
      exact readFilesLoop_some _ _ hloop

/-- Witness for C8: a subdirectory inside `users` makes one read fail, so the
whole call aborts; without it the call returns every record's bytes. -/
theorem readAll_all_or_nothing_witness :
    ReadAll root0 fsSub [] "users" = .error .readErr
    ∧ (["old".data]
        = (fsUsers.readDir (root0 ++ ["users"])).map
            (fun n => (readFileF fsUsers [] ((root0 ++ ["users"]) ++ [n])).getD [])
        ∧ ∀ n ∈ fsUsers.readDir (root0 ++ ["users"]),
            ¬readFileF fsUsers [] ((root0 ++ ["users"]) ++ [n]) = none) :=
  ⟨(readAll_all_or_nothing root0 fsSub [] "users" (by decide) (by decide)).1
      ⟨"sub", by decide, by decide⟩,
    (readAll_all_or_nothing root0 fsUsers [] "users" (by decide) (by decide)).2
      ["old".data] rfl⟩

/-- C4 (code evidence): the source's `getOrCreateMutex` acquires no store-wide
lock (the Driver's `mutex` field, declared at line 25, is never locked
anywhere in `main.go`), so its probe and install are separately schedulable:
two concurrent callers for `"users"` interleaved probe-probe-install-install
each install and return a distinct mutex, ids 0 and 1 - two different lock
instances for the same name in one Driver's lifetime.  Run without
interference (the guarded behaviour the claim describes), a second call
always returns the first call's mutex. -/
theorem getOrCreateMutex_unguarded_race :
    ((runSched "users" [false, true, false, true] ⟨⟨[], 0⟩, .start, .start⟩).t0
        = .finished 0
      ∧ (runSched "users" [false, true, false, true] ⟨⟨[], 0⟩, .start, .start⟩).t1
        = .finished 1)
    ∧ ∀ reg : Reg,
        (getOrCreateMutex (getOrCreateMutex reg "users").2 "users").1
          = (getOrCreateMutex reg "users").1 := by
  refine ⟨⟨rfl, rfl⟩, ?_⟩
  intro reg
  cases hl : lookupMutex reg "users" with
  | some m => simp [getOrCreateMutex, hl]
  | none =>
    simp only [getOrCreateMutex, hl]
    rw [show lookupMutex ⟨("users", reg.nextId) :: reg.mutexes, reg.nextId + 1⟩ "users"
        = some reg.nextId from by simp [lookupMutex]]

theorem isPrefixOf_self (l : Path) : l.isPrefixOf l = true := by
  induction l with
  | nil => rfl
  | cons x xs ih => simp [List.isPrefixOf, ih]

theorem concat_not_pre {l : Path} {a b : String} (h : ¬a = b) :
    (l ++ [a]).isPrefixOf (l ++ [b]) = false := by
  induction l with
  | nil => simpa [List.isPrefixOf] using h
  | cons x xs ih => simpa [List.isPrefixOf] using ih

theorem jsonjson_ne_json (r : String) : ¬r ++ ".json" ++ ".json" = r ++ ".json" := by
  intro h
  have hlen := congrArg String.length h
  rw [String.length_append, String.length_append] at hlen
  have h5 : (".json" : String).length = 5 := rfl
  rw [h5] at hlen
  omega

/-- C3 (counterexample): with the record stored at `users/Ashlie.json`,
`Delete("users", "Ashlie")` removes it, but `Delete("users", "Ashlie.json")`,
although it also reports success, leaves the record in place (it removed
`users/Ashlie.json.json` instead), and `Read("users", "Ashlie.json")` fails
with a read error - so the two addressings do not behave identically and the
suffixed form does not remove the record. -/
theorem dual_probe_counterexample :
    (Delete root0 fsUsers "users" "Ashlie").2.lookupFile ["db", "users", "Ashlie.json"] = none
    ∧ (Delete root0 fsUsers "users" "Ashlie.json").1 = .ok ()
    ∧ (Delete root0 fsUsers "users" "Ashlie.json").2.lookupFile ["db", "users", "Ashlie.json"]
      = some "old".data
    ∧ Read root0 fsUsers "users" "Ashlie.json" = .error .readErr := by
  decide

/-- C3 (amended): for a record on disk at `<c>/<r>.json`, `Delete` under the
bare name `<r>` removes the record; under the pre-suffixed name `<r>.json` it
still returns no error but removes `<c>/<r>.json.json` instead, leaving the
record's bytes untouched; `Read` under the pre-suffixed name passes the
dual-probe existence check but then fails reading `<c>/<r>.json.json`. -/
theorem dual_probe_amended (root : Path) (fs : FS) (c r : String)
    (hc : ¬c = "") (hr : ¬r = "")
    (hbdir : fs.isDir (root ++ [c, r]) = false)
    (hbfile : fs.isFile (root ++ [c, r]) = false)
    (hfdir : fs.isDir (root ++ [c, r ++ ".json"]) = false)
    (hffile : fs.isFile (root ++ [c, r ++ ".json"]) = true)
    (hjjdir : fs.isDir (root ++ [c, r ++ ".json" ++ ".json"]) = false)
    (hjjfile : fs.isFile (root ++ [c, r ++ ".json" ++ ".json"]) = false) :
    (Delete root fs c r = (.ok (), fs.removeAll (root ++ [c, r ++ ".json"]))
      ∧ (Delete root fs c r).2.lookupFile (root ++ [c, r ++ ".json"]) = none)
    ∧ (Delete root fs c (r ++ ".json")
        = (.ok (), fs.removeAll (root ++ [c, r ++ ".json" ++ ".json"]))
      ∧ (Delete root fs c (r ++ ".json")).2.lookupFile (root ++ [c, r ++ ".json"])
        = fs.lookupFile (root ++ [c, r ++ ".json"]))
    ∧ Read root fs c (r ++ ".json") = .error .readErr := by
  have hrj : ¬r ++ ".json" = "" := by
    intro h
    have hlen := congrArg String.length h
    rw [String.length_append] at hlen
    have h5 : (".json" : String).length = 5 := rfl
    have h0 : ("" : String).length = 0 := rfl
    rw [h5, h0] at hlen
    omega
  have hstatb : stat fs (root ++ [c, r]) = some .regular := by
    simp [stat, osStat, hbdir, hbfile, appendStr_concat2, hfdir, hffile]
  have hstatf : stat fs (root ++ [c, r ++ ".json"]) = some .regular := by
    simp [stat, osStat, hfdir, hffile]
  have hpre : (root ++ [c, r ++ ".json" ++ ".json"]).isPrefixOf (root ++ [c, r ++ ".json"])
      = false := by
    have h2 : root ++ [c, r ++ ".json" ++ ".json"] = (root ++ [c]) ++ [r ++ ".json" ++ ".json"] := by
      simp
    have h3 : root ++ [c, r ++ ".json"] = (root ++ [c]) ++ [r ++ ".json"] := by
      simp
    rw [h2, h3]
    exact concat_not_pre (jsonjson_ne_json r)
  refine ⟨⟨?_, ?_⟩, ⟨?_, ?_⟩, ?_⟩
  · simp only [Delete, hc, hr, if_false, List.cons_append, List.nil_append, hstatb,
      appendStr_concat2]
  · simp only [Delete, hc, hr, if_false, List.cons_append, List.nil_append, hstatb,
      appendStr_concat2]
    exact removeAll_lookup_under (by
      have h3 : root ++ [c, r ++ ".json"] = (root ++ [c]) ++ [r ++ ".json"] := by simp
      rw [h3]
      exact isPrefixOf_self _)
  · simp only [Delete, hc, hrj, if_false, List.cons_append, List.nil_append, hstatf,
      appendStr_concat2]
  · simp only [Delete, hc, hrj, if_false, List.cons_append, List.nil_append, hstatf,
      appendStr_concat2]
    exact removeAll_lookup_eq hpre
  · have hjjlook : fs.lookupFile (root ++ [c, r ++ ".json" ++ ".json"]) = none := by
      cases hl : fs.lookupFile (root ++ [c, r ++ ".json" ++ ".json"]) with
      | none => rfl
      | some b =>
        rw [FS.isFile, hl] at hjjfile
        exact Bool.noConfusion hjjfile
    simp only [Read, hc, hrj, if_false]
    rw [show root ++ [c] ++ [r ++ ".json"] = root ++ [c, r ++ ".json"] from by simp]
    rw [hstatf, appendStr_concat2]
    simp [FS.readFile, hjjdir, hjjlook]

/-- Witness for the amended C3 at the spec's concrete scenario. -/
theorem dual_probe_amended_witness :
    (Delete root0 fsUsers "users" "Ashlie"
        = (.ok (), fsUsers.removeAll (root0 ++ ["users", "Ashlie" ++ ".json"]))
      ∧ (Delete root0 fsUsers "users" "Ashlie").2.lookupFile
          (root0 ++ ["users", "Ashlie" ++ ".json"]) = none)
    ∧ (Delete root0 fsUsers "users" ("Ashlie" ++ ".json")
        = (.ok (), fsUsers.removeAll (root0 ++ ["users", "Ashlie" ++ ".json" ++ ".json"]))
      ∧ (Delete root0 fsUsers "users" ("Ashlie" ++ ".json")).2.lookupFile
          (root0 ++ ["users", "Ashlie" ++ ".json"])
        = fsUsers.lookupFile (root0 ++ ["users", "Ashlie" ++ ".json"]))
    ∧ Read root0 fsUsers "users" ("Ashlie" ++ ".json") = .error .readErr :=
  dual_probe_amended root0 fsUsers "users" "Ashlie" (by decide) (by decide) (by decide)
    (by decide) (by decide) (by decide) (by decide) (by decide)

theorem contains_append_left_false {l1 l2 : List Path} {q : Path}
    (h : l1.contains q = false) : (l1 ++ l2).contains q = l2.contains q := by
  induction l1 with
  | nil => rfl
  | cons x xs ih =>
    rw [List.contains_cons] at h
    rcases Bool.or_eq_false_iff.mp h with ⟨h1, h2⟩
    rw [List.cons_append, List.contains_cons, h1, Bool.false_or]
    exact ih h2

theorem not_contains_of_not_mem {l : List Path} {q : Path} (h : q ∉ l) :
    l.contains q = false := by
  cases hc : l.contains q with
  | false => rfl
  | true => exact absurd (List.mem_of_elem_eq_true hc) h

theorem concat_not_mem_pathInits (p : Path) (a : String) : p ++ [a] ∉ pathInits p := by
  intro h
  have hlen := pathInits_mem_len h
  rw [List.length_append] at hlen
  simp at hlen

theorem concat_ne_of_len {l : Path} {a b : String} (h : ¬a.length = b.length) :
    ¬l ++ [a] = l ++ [b] := by
  intro he
  have hlast := congrArg List.getLast? he
  rw [List.getLast?_concat, List.getLast?_concat] at hlast
  injection hlast with hstr
  exact h (by rw [hstr])

/-- C1: writing an encodable value and then reading it back under the same
collection and resource names succeeds and returns exactly the value
written: serialization followed by deserialization round-trips.  The
obstruction hypotheses say the names resolve to usable paths in the current
state (no file blocks the collection directory's creation and no directory
sits where the record or its temp file go). -/
theorem write_read_roundtrip (root : Path) (fs : FS) (c r : String) (j : JValue)
    (hc : ¬c = "") (hr : ¬r = "") (hwf : wf j = true) (hv : isVal j = true)
    (hnofiles : ∀ q ∈ pathInits (root ++ [c]), fs.isFile q = false)
    (htmpdir : fs.isDir ((root ++ [c]) ++ [r ++ ".json" ++ ".tmp"]) = false)
    (hfnldir : fs.isDir ((root ++ [c]) ++ [r ++ ".json"]) = false) :
    (Write root fs noFaults c r (.enc j)).1 = .ok ()
    ∧ Read root (Write root fs noFaults c r (.enc j)).2 c r = .ok j := by
  have hany : (pathInits (root ++ [c])).any (fun q => fs.isFile q) = false := by
    cases hA : (pathInits (root ++ [c])).any (fun q => fs.isFile q) with
    | false => rfl
    | true =>
      obtain ⟨q, hq, hfq⟩ := List.any_eq_true.mp hA
      rw [hnofiles q hq] at hfq
      exact Bool.noConfusion hfq
  have hmk : fs.mkdirAll (root ++ [c])
      = some ⟨pathInits (root ++ [c]) ++ fs.dirs, fs.files⟩ := by
    simp [FS.mkdirAll, hany]
  have hinits_tmp : (pathInits (root ++ [c])).contains ((root ++ [c]) ++ [r ++ ".json" ++ ".tmp"])
      = false := not_contains_of_not_mem (concat_not_mem_pathInits _ _)
  have hinits_fnl : (pathInits (root ++ [c])).contains ((root ++ [c]) ++ [r ++ ".json"])
      = false := not_contains_of_not_mem (concat_not_mem_pathInits _ _)
  have hinits_rec : (pathInits (root ++ [c])).contains ((root ++ [c]) ++ [r])
      = false := not_contains_of_not_mem (concat_not_mem_pathInits _ _)
  have htmp1 : (⟨pathInits (root ++ [c]) ++ fs.dirs, fs.files⟩ : FS).isDir
      ((root ++ [c]) ++ [r ++ ".json" ++ ".tmp"]) = false := by
    rw [FS.isDir, contains_append_left_false hinits_tmp]
    exact htmpdir
  have hpar1 : (⟨pathInits (root ++ [c]) ++ fs.dirs, fs.files⟩ : FS).isDir
      (((root ++ [c]) ++ [r ++ ".json" ++ ".tmp"]).dropLast) = true := by
    rw [List.dropLast_concat, FS.isDir]
    cases hcont : (pathInits (root ++ [c]) ++ fs.dirs).contains (root ++ [c]) with
    | true => rfl
    | false =>
      have hm : (root ++ [c]) ∈ pathInits (root ++ [c]) ++ fs.dirs :=
        List.mem_append_left _ (self_mem_pathInits _)
      have hT : (pathInits (root ++ [c]) ++ fs.dirs).contains (root ++ [c]) = true :=
        List.elem_eq_true_of_mem hm
      rw [hcont] at hT
      exact Bool.noConfusion hT
  have hwrite : (⟨pathInits (root ++ [c]) ++ fs.dirs, fs.files⟩ : FS).writeFile
      ((root ++ [c]) ++ [r ++ ".json" ++ ".tmp"]) (printV j 0 ++ ['\n'])
      = some ((⟨pathInits (root ++ [c]) ++ fs.dirs, fs.files⟩ : FS).setFile
          ((root ++ [c]) ++ [r ++ ".json" ++ ".tmp"]) (printV j 0 ++ ['\n'])) := by
    simp only [FS.writeFile, htmp1, hpar1, Bool.false_eq_true, if_false,
      eq_self_iff_true, if_true]
  have hfnl2 : ((⟨pathInits (root ++ [c]) ++ fs.dirs, fs.files⟩ : FS).setFile
      ((root ++ [c]) ++ [r ++ ".json" ++ ".tmp"]) (printV j 0 ++ ['\n'])).isDir
      ((root ++ [c]) ++ [r ++ ".json"]) = false := by
    rw [isDir_setFile, FS.isDir, contains_append_left_false hinits_fnl]
    exact hfnldir
  have hren : ((⟨pathInits (root ++ [c]) ++ fs.dirs, fs.files⟩ : FS).setFile
      ((root ++ [c]) ++ [r ++ ".json" ++ ".tmp"]) (printV j 0 ++ ['\n'])).rename
      ((root ++ [c]) ++ [r ++ ".json" ++ ".tmp"]) ((root ++ [c]) ++ [r ++ ".json"])
      = some ((((⟨pathInits (root ++ [c]) ++ fs.dirs, fs.files⟩ : FS).setFile
          ((root ++ [c]) ++ [r ++ ".json" ++ ".tmp"]) (printV j 0 ++ ['\n'])).eraseFile
            ((root ++ [c]) ++ [r ++ ".json" ++ ".tmp"])).setFile
          ((root ++ [c]) ++ [r ++ ".json"]) (printV j 0 ++ ['\n'])) := by
    simp only [FS.rename, lookupFile_setFile_self, hfnl2, Bool.false_eq_true, if_false]
  have hW : Write root fs noFaults c r (.enc j)
      = (.ok (), (((⟨pathInits (root ++ [c]) ++ fs.dirs, fs.files⟩ : FS).setFile
          ((root ++ [c]) ++ [r ++ ".json" ++ ".tmp"]) (printV j 0 ++ ['\n'])).eraseFile
            ((root ++ [c]) ++ [r ++ ".json" ++ ".tmp"])).setFile
          ((root ++ [c]) ++ [r ++ ".json"]) (printV j 0 ++ ['\n'])) := by
    simp only [Write, hc, hr, if_false, marshalIndent, noFaults, hmk, appendStr_concat,
      hwrite, hren, Bool.false_eq_true]
  refine ⟨by rw [hW], ?_⟩
  rw [hW]
  have hrec_ne_fnl : ¬(root ++ [c]) ++ [r] = (root ++ [c]) ++ [r ++ ".json"] := by
    apply concat_ne_of_len
    rw [String.length_append]
    have h5 : (".json" : String).length = 5 := rfl
    rw [h5]
    omega
  have hrec_ne_tmp : ¬(root ++ [c]) ++ [r] = (root ++ [c]) ++ [r ++ ".json" ++ ".tmp"] := by
    apply concat_ne_of_len
    rw [String.length_append, String.length_append]
    have h5 : (".json" : String).length = 5 := rfl
    have h4 : (".tmp" : String).length = 4 := rfl
    rw [h5, h4]
    omega
  have hlook3fnl : ((((⟨pathInits (root ++ [c]) ++ fs.dirs, fs.files⟩ : FS).setFile
      ((root ++ [c]) ++ [r ++ ".json" ++ ".tmp"]) (printV j 0 ++ ['\n'])).eraseFile
        ((root ++ [c]) ++ [r ++ ".json" ++ ".tmp"])).setFile
      ((root ++ [c]) ++ [r ++ ".json"]) (printV j 0 ++ ['\n'])).lookupFile
      ((root ++ [c]) ++ [r ++ ".json"]) = some (printV j 0 ++ ['\n']) :=
    lookupFile_setFile_self _ _ _
  have hlook3rec : ((((⟨pathInits (root ++ [c]) ++ fs.dirs, fs.files⟩ : FS).setFile
      ((root ++ [c]) ++ [r ++ ".json" ++ ".tmp"]) (printV j 0 ++ ['\n'])).eraseFile
        ((root ++ [c]) ++ [r ++ ".json" ++ ".tmp"])).setFile
      ((root ++ [c]) ++ [r ++ ".json"]) (printV j 0 ++ ['\n'])).lookupFile
      ((root ++ [c]) ++ [r]) = fs.lookupFile ((root ++ [c]) ++ [r]) := by
    rw [lookupFile_setFile_ne _ _ hrec_ne_fnl, lookupFile_eraseFile_ne _ hrec_ne_tmp,
      lookupFile_setFile_ne _ _ hrec_ne_tmp]
    rfl
  have hisdir3 : ∀ q, ((((⟨pathInits (root ++ [c]) ++ fs.dirs, fs.files⟩ : FS).setFile
      ((root ++ [c]) ++ [r ++ ".json" ++ ".tmp"]) (printV j 0 ++ ['\n'])).eraseFile
        ((root ++ [c]) ++ [r ++ ".json" ++ ".tmp"])).setFile
      ((root ++ [c]) ++ [r ++ ".json"]) (printV j 0 ++ ['\n'])).isDir q
      = (pathInits (root ++ [c]) ++ fs.dirs).contains q := fun _ => rfl
  have hrecdir3 : ((((⟨pathInits (root ++ [c]) ++ fs.dirs, fs.files⟩ : FS).setFile
      ((root ++ [c]) ++ [r ++ ".json" ++ ".tmp"]) (printV j 0 ++ ['\n'])).eraseFile
        ((root ++ [c]) ++ [r ++ ".json" ++ ".tmp"])).setFile
      ((root ++ [c]) ++ [r ++ ".json"]) (printV j 0 ++ ['\n'])).isDir
      ((root ++ [c]) ++ [r]) = fs.isDir ((root ++ [c]) ++ [r]) := by
    rw [hisdir3, contains_append_left_false hinits_rec]
    rfl
  have hfnldir3 : ((((⟨pathInits (root ++ [c]) ++ fs.dirs, fs.files⟩ : FS).setFile
      ((root ++ [c]) ++ [r ++ ".json" ++ ".tmp"]) (printV j 0 ++ ['\n'])).eraseFile
        ((root ++ [c]) ++ [r ++ ".json" ++ ".tmp"])).setFile
      ((root ++ [c]) ++ [r ++ ".json"]) (printV j 0 ++ ['\n'])).isDir
      ((root ++ [c]) ++ [r ++ ".json"]) = false := by
    rw [hisdir3, contains_append_left_false hinits_fnl]
    exact hfnldir
  simp only [Read, hc, hr, if_false]
  have hstat3 : ∃ m, stat ((((⟨pathInits (root ++ [c]) ++ fs.dirs, fs.files⟩ : FS).setFile
      ((root ++ [c]) ++ [r ++ ".json" ++ ".tmp"]) (printV j 0 ++ ['\n'])).eraseFile
        ((root ++ [c]) ++ [r ++ ".json" ++ ".tmp"])).setFile
      ((root ++ [c]) ++ [r ++ ".json"]) (printV j 0 ++ ['\n']))
      (root ++ [c] ++ [r]) = some m := by
    cases h1 : fs.isDir ((root ++ [c]) ++ [r]) with
    | true =>
      refine ⟨.dir, ?_⟩
      simp only [stat, osStat, hrecdir3, h1, if_true]
    | false =>
      cases h2 : fs.lookupFile ((root ++ [c]) ++ [r]) with
      | some b =>
        refine ⟨.regular, ?_⟩
        simp only [stat, osStat, hrecdir3, h1, Bool.false_eq_true, if_false, FS.isFile,
          hlook3rec, h2, Option.isSome_some, if_true]
      | none =>
        refine ⟨.regular, ?_⟩
        simp only [stat, osStat, hrecdir3, h1, Bool.false_eq_true, if_false, FS.isFile,
          hlook3rec, h2, Option.isSome_none, appendStr_concat, hfnldir3, hlook3fnl,
          Option.isSome_some, if_true]
  obtain ⟨m, hstat3⟩ := hstat3
  rw [hstat3]
  simp only [appendStr_concat, FS.readFile, hfnldir3, Bool.false_eq_true, if_false,
    hlook3fnl, unmarshal_print hwf hv]

/-- Witness for C1: writing the sample record into an empty store and reading
it back returns exactly the record. -/
theorem write_read_roundtrip_witness :
    (Write root0 fsEmpty noFaults "users" "John" (.enc jSample)).1 = .ok ()
    ∧ Read root0 (Write root0 fsEmpty noFaults "users" "John" (.enc jSample)).2 "users" "John"
      = .ok jSample :=
  write_read_roundtrip root0 fsEmpty "users" "John" jSample (by decide) (by decide)
    (by decide) (by decide) (by decide) (by decide) (by decide)

end GoDB
